import Mathlib

/-!
Verification of the path-tracking JSON cursor (`src/lib/json_cursor.py`).

The Python values that can appear as nodes of a JSON-like tree are modelled
by the inductive type `PyVal`.  The source annotates nodes as
`Union[JsonValueType, Mapping, Sequence]`; besides dicts, lists and scalars
this admits non-list sequences (tuples), byte strings, and non-dict mappings
(`types.MappingProxyType`, `collections.UserDict`), all of which the source
treats specially (`isinstance(node, list)` in `__getitem__` and
`isinstance(node, dict)` in `__getattr__` versus the `Mapping`/`Sequence`
classification used in `search`/`visit`/`on_dict`/`on_list`), so the model
keeps them as constructors.
-/

/-- A path segment recorded by the cursor: a dict key or a sequence index
(`self.path + [name]` and `self.path + [index]` in the source). -/
inductive Seg where
  | key (s : String)
  | idx (n : Nat)
deriving DecidableEq, Repr

/-- Python values that can occur as nodes of a JSON-like tree, and as results
of predicates and visit handlers.  `dict` carries its entries in insertion
order (Python dicts preserve it); `tuple` is a sequence that is not a `list`;
`mappingProxy` is a Mapping that is not a `dict` (such as
`types.MappingProxyType` or `collections.UserDict`); `bytes` is a byte string
(a Python `Sequence` that the source explicitly excludes from sequence
classification). -/
inductive PyVal where
  | dict (entries : List (String × PyVal))
  | mappingProxy (entries : List (String × PyVal))
  | list (items : List PyVal)
  | tuple (items : List PyVal)
  | str (s : String)
  | bytes (bs : List Nat)
  | int (n : Int)
  | bool (b : Bool)
  | none

/-- Induction principle for `PyVal` that hands the inductive hypothesis to
every member of the nested entry/item lists. -/
theorem PyVal.inductionOn {motive : PyVal → Prop}
    (hdict : ∀ es, (∀ e ∈ es, motive e.2) → motive (.dict es))
    (hproxy : ∀ es, (∀ e ∈ es, motive e.2) → motive (.mappingProxy es))
    (hlist : ∀ xs, (∀ x ∈ xs, motive x) → motive (.list xs))
    (htuple : ∀ xs, (∀ x ∈ xs, motive x) → motive (.tuple xs))
    (hstr : ∀ s, motive (.str s))
    (hbytes : ∀ bs, motive (.bytes bs))
    (hint : ∀ n, motive (.int n))
    (hbool : ∀ b, motive (.bool b))
    (hnone : motive .none) :
    ∀ v, motive v
  | .dict es => hdict es (fun e _he =>
      PyVal.inductionOn hdict hproxy hlist htuple hstr hbytes hint hbool hnone e.2)
  | .mappingProxy es => hproxy es (fun e _hp =>
      PyVal.inductionOn hdict hproxy hlist htuple hstr hbytes hint hbool hnone e.2)
  | .list xs => hlist xs (fun x _hx =>
      PyVal.inductionOn hdict hproxy hlist htuple hstr hbytes hint hbool hnone x)
  | .tuple xs => htuple xs (fun x _hx =>
      PyVal.inductionOn hdict hproxy hlist htuple hstr hbytes hint hbool hnone x)
  | .str s => hstr s
  | .bytes bs => hbytes bs
  | .int n => hint n
  | .bool b => hbool b
  | .none => hnone
termination_by v => sizeOf v
decreasing_by
  · have h1 := List.sizeOf_lt_of_mem _he
    obtain ⟨k, x⟩ := e
    simp only [Prod.mk.sizeOf_spec] at h1
    simp only [PyVal.dict.sizeOf_spec]
    omega
  · have h1 := List.sizeOf_lt_of_mem _hp
    obtain ⟨k, x⟩ := e
    simp only [Prod.mk.sizeOf_spec] at h1
    simp only [PyVal.mappingProxy.sizeOf_spec]
    omega
  · have h1 := List.sizeOf_lt_of_mem _hx
    simp only [PyVal.list.sizeOf_spec]
    omega
  · have h1 := List.sizeOf_lt_of_mem _hx
    simp only [PyVal.tuple.sizeOf_spec]
    omega

mutual

/-- Structural equality test on `PyVal`. -/
def PyVal.beq : PyVal → PyVal → Bool
  | .dict es, .dict fs => beqEntries es fs
  | .mappingProxy es, .mappingProxy fs => beqEntries es fs
  | .list xs, .list ys => beqItems xs ys
  | .tuple xs, .tuple ys => beqItems xs ys
  | .str a, .str b => a == b
  | .bytes a, .bytes b => a == b
  | .int a, .int b => a == b
  | .bool a, .bool b => a == b
  | .none, .none => true
  | _, _ => false

/-- Structural equality test on dict entry lists. -/
def beqEntries : List (String × PyVal) → List (String × PyVal) → Bool
  | [], [] => true
  | (k, v) :: r, (k2, v2) :: r2 => k == k2 && PyVal.beq v v2 && beqEntries r r2
  | _ :: _, [] => false
  | [], _ :: _ => false

/-- Structural equality test on item lists. -/
def beqItems : List PyVal → List PyVal → Bool
  | [], [] => true
  | v :: r, v2 :: r2 => PyVal.beq v v2 && beqItems r r2
  | _ :: _, [] => false
  | [], _ :: _ => false

end

theorem beqItems_iff_of_ih {xs : List PyVal}
    (ih : ∀ x ∈ xs, ∀ b, PyVal.beq x b = true ↔ x = b) :
    ∀ ys, beqItems xs ys = true ↔ xs = ys := by
  induction xs with
  | nil => intro ys; cases ys <;> simp [beqItems]
  | cons x r hr =>
    intro ys
    cases ys with
    | nil => simp [beqItems]
    | cons y r2 =>
      simp only [beqItems, Bool.and_eq_true]
      rw [ih x (by simp) y, hr (fun z hz => ih z (by simp [hz]))]
      simp

theorem beqEntries_iff_of_ih {es : List (String × PyVal)}
    (ih : ∀ e ∈ es, ∀ b, PyVal.beq e.2 b = true ↔ e.2 = b) :
    ∀ fs, beqEntries es fs = true ↔ es = fs := by
  induction es with
  | nil => intro fs; cases fs <;> simp [beqEntries]
  | cons e r hr =>
    intro fs
    obtain ⟨k, v⟩ := e
    cases fs with
    | nil => simp [beqEntries]
    | cons f r2 =>
      obtain ⟨k2, v2⟩ := f
      simp only [beqEntries, Bool.and_eq_true]
      rw [ih (k, v) (by simp) v2, hr (fun z hz => ih z (by simp [hz]))]
      simp [beq_iff_eq, Prod.ext_iff, and_assoc]

theorem PyVal.beq_iff (a : PyVal) : ∀ b, PyVal.beq a b = true ↔ a = b := by
  induction a using PyVal.inductionOn with
  | hdict es ih =>
    intro b
    cases b <;> simp only [PyVal.beq] <;> try simp
    exact beqEntries_iff_of_ih (fun e he b => ih e he b) _
  | hproxy es ih =>
    intro b
    cases b <;> simp only [PyVal.beq] <;> try simp
    exact beqEntries_iff_of_ih (fun e he b => ih e he b) _
  | hlist xs ih =>
    intro b
    cases b <;> simp only [PyVal.beq] <;> try simp
    exact beqItems_iff_of_ih ih _
  | htuple xs ih =>
    intro b
    cases b <;> simp only [PyVal.beq] <;> try simp
    exact beqItems_iff_of_ih ih _
  | hstr s => intro b; cases b <;> simp [PyVal.beq]
  | hbytes bs => intro b; cases b <;> simp [PyVal.beq]
  | hint n => intro b; cases b <;> simp [PyVal.beq]
  | hbool bb => intro b; cases b <;> simp [PyVal.beq]
  | hnone => intro b; cases b <;> simp [PyVal.beq]

instance : DecidableEq PyVal :=
  fun a b => decidable_of_iff (PyVal.beq a b = true) (PyVal.beq_iff a b)

/-- Python truthiness (`bool(v)`) for the modelled values: empty containers,
the empty string, zero, `False` and `None` are falsy, everything else truthy. -/
def truthy : PyVal → Bool
  | .dict es => !es.isEmpty
  | .mappingProxy es => !es.isEmpty
  | .list xs => !xs.isEmpty
  | .tuple xs => !xs.isEmpty
  | .str s => !s.isEmpty
  | .bytes bs => !bs.isEmpty
  | .int n => decide (n ≠ 0)
  | .bool b => b
  | .none => false

/-- The cursor: a node together with the path from the root
(`self.node`, `self.path` in `JsonCursor.__init__`). -/
structure JsonCursor where
  node : PyVal
  path : List Seg
deriving DecidableEq

/-- First-match association-list lookup; Python dict lookup (`name in self.node`,
`self.node[name]`).  A genuine Python dict has no duplicate keys (see `WF`). -/
def lookupKey : List (String × PyVal) → String → Option PyVal
  | [], _ => Option.none
  | (k, v) :: rest, name => if k = name then some v else lookupKey rest name

/-- Errors raised by the cursor, named as in the specification's taxonomy.
They correspond one-to-one to the distinct `raise` sites of the source:
`TypeMismatch` ≈ `AttributeError("Current node is not a JSON object (dict)")`,
`KeyNotFound` ≈ `AttributeError("Key '...' not found in current node")`,
`NotASequence` ≈ `TypeError("Current node is not a JSON array (list)")`,
`IndexOutOfRange` ≈ `IndexError("List index out of range")`,
`NotATerminal` ≈ `TypeError("Current node is not a terminal JSON value")`. -/
inductive NavError where
  | TypeMismatch
  | KeyNotFound
  | NotASequence
  | IndexOutOfRange
  | NotATerminal
deriving DecidableEq, Repr

instance {ε α : Type} [DecidableEq ε] [DecidableEq α] : DecidableEq (Except ε α) :=
  fun a b =>
    match a, b with
    | .ok x, .ok y => decidable_of_iff (x = y) (by simp)
    | .error e, .error f => decidable_of_iff (e = f) (by simp)
    | .ok _, .error _ => isFalse (by simp)
    | .error _, .ok _ => isFalse (by simp)

namespace JsonCursor

/-- `JsonCursor.__getattr__` (the spec's `childByKey`): on a dict, look the key
up and descend, appending the key to the path; otherwise `TypeMismatch`. -/
def childByKey (c : JsonCursor) (name : String) : Except NavError JsonCursor :=
  match c.node with
  | .dict es =>
    match lookupKey es name with
    | some v => .ok ⟨v, c.path ++ [.key name]⟩
    | Option.none => .error .KeyNotFound
  | _ => .error .TypeMismatch

/-- `JsonCursor.__getitem__` (the spec's `childByIndex`): only on a `list`
(`isinstance(self.node, list)` in the source — a tuple does not qualify),
with the Python bound check `0 <= index < len(self.node)`. -/
def childByIndex (c : JsonCursor) (index : Int) : Except NavError JsonCursor :=
  match c.node with
  | .list xs =>
    if h : 0 ≤ index ∧ index < xs.length then
      .ok ⟨xs.get ⟨index.toNat, by omega⟩, c.path ++ [.idx index.toNat]⟩
    else .error .IndexOutOfRange
  | _ => .error .NotASequence

/-- `JsonCursor.value`: fails on a dict or a list (`isinstance(self.node,
(dict, list))` in the source), returns the node itself otherwise. -/
def value (c : JsonCursor) : Except NavError PyVal :=
  match c.node with
  | .dict _ => .error .NotATerminal
  | .list _ => .error .NotATerminal
  | v => .ok v

/-- `JsonCursor.get_path` (pure view): the path value held by the cursor.
The aliasing behaviour of the source's `return self.path` is modelled
separately by `HeapCursor.get_path`. -/
def get_path (c : JsonCursor) : List Seg :=
  c.path

/-- `JsonCursor.on_dict`: `isinstance(self.node, Mapping)`. -/
def on_dict (c : JsonCursor) : Bool :=
  match c.node with
  | .dict _ => true
  | .mappingProxy _ => true
  | _ => false

/-- `JsonCursor.on_list`: `isinstance(n, Sequence) and not isinstance(n, (str,
bytes, bytearray))`.  Lists and tuples are sequences; strings and byte strings
are excluded. -/
def on_list (c : JsonCursor) : Bool :=
  match c.node with
  | .list _ => true
  | .tuple _ => true
  | _ => false

/-- `JsonCursor.on_data`: `not (self.on_dict() or self.on_list())`. -/
def on_data (c : JsonCursor) : Bool :=
  !(c.on_dict || c.on_list)

end JsonCursor


/-! Search (`JsonCursor.search`), modelled with the node and path split out so
the recursion is on the node.  A Python predicate may return any value; a node
matches when the result is truthy (`if predicate(cursor):`).  The recursive
calls return a cursor or `None`, and a cursor object is always truthy, so
`if result:` is a `some`-check. -/

mutual

/-- Body of `JsonCursor.search._recursive_search` for the cursor `⟨n, p⟩`:
test the predicate on the node itself, then recurse into dict entries
(`isinstance(cursor.node, Mapping)`) or sequence items (`isinstance(cursor.node,
Sequence) and not isinstance(cursor.node, (str, bytes, bytearray))`). -/
def searchAux (pred : JsonCursor → PyVal) (n : PyVal) (p : List Seg) :
    Option JsonCursor :=
  if truthy (pred ⟨n, p⟩) then some ⟨n, p⟩
  else
    match n with
    | .dict es => searchEntries pred p es
    | .mappingProxy es => searchEntries pred p es
    | .list xs => searchItems pred p 0 xs
    | .tuple xs => searchItems pred p 0 xs
    | _ => Option.none

/-- The `for key, value in cursor.node.items():` loop of `_recursive_search`. -/
def searchEntries (pred : JsonCursor → PyVal) (p : List Seg) :
    List (String × PyVal) → Option JsonCursor
  | [] => Option.none
  | (k, v) :: rest =>
    match searchAux pred v (p ++ [.key k]) with
    | some r => some r
    | Option.none => searchEntries pred p rest

/-- The `for index, item in enumerate(cursor.node):` loop of
`_recursive_search`; `i` is the enumeration counter. -/
def searchItems (pred : JsonCursor → PyVal) (p : List Seg) (i : Nat) :
    List PyVal → Option JsonCursor
  | [] => Option.none
  | x :: rest =>
    match searchAux pred x (p ++ [.idx i]) with
    | some r => some r
    | Option.none => searchItems pred p (i + 1) rest

end

/-- `JsonCursor.search`: run `_recursive_search` on the cursor itself. -/
def JsonCursor.search (c : JsonCursor) (pred : JsonCursor → PyVal) :
    Option JsonCursor :=
  searchAux pred c.node c.path

mutual

/-- The depth-first pre-order enumeration of all cursors of the subtree at
`⟨n, p⟩`, in the exact order `search` examines them: the node itself first,
then dict entries in order, or sequence items in index order. -/
def preorderAux (n : PyVal) (p : List Seg) : List JsonCursor :=
  ⟨n, p⟩ ::
    match n with
    | .dict es => preorderEntries p es
    | .mappingProxy es => preorderEntries p es
    | .list xs => preorderItems p 0 xs
    | .tuple xs => preorderItems p 0 xs
    | _ => []

/-- Pre-order cursors contributed by a dict's entries. -/
def preorderEntries (p : List Seg) : List (String × PyVal) → List JsonCursor
  | [] => []
  | (k, v) :: rest => preorderAux v (p ++ [.key k]) ++ preorderEntries p rest

/-- Pre-order cursors contributed by a sequence's items, starting at index `i`. -/
def preorderItems (p : List Seg) (i : Nat) : List PyVal → List JsonCursor
  | [] => []
  | x :: rest => preorderAux x (p ++ [.idx i]) ++ preorderItems p (i + 1) rest

end

/-- All cursors of the subtree rooted at `c`, in pre-order. -/
def preorderCursors (c : JsonCursor) : List JsonCursor :=
  preorderAux c.node c.path

/-- One handler call of `visit`: the cursor passed and the `entering` flag. -/
abbrev VEvent := JsonCursor × Bool

/-- The container test used by `visit` and `search` to decide descent:
dicts (`Mapping`) and lists/tuples (`Sequence` minus strings and bytes) are
containers, everything else is terminal. -/
def isContainer : PyVal → Bool
  | .dict _ => true
  | .mappingProxy _ => true
  | .list _ => true
  | .tuple _ => true
  | _ => false

mutual

/-- Body of `JsonCursor.visit._recursive_visit` for the cursor `⟨n, p⟩`.
The handler is modelled with an explicit state `s` (its Python side channel);
each call returns the new state and the returned Python value.  The result is
the final state and the list of handler calls made, in order.  Pruning is the
source's `if continue_descent is False: return` — an identity test against the
`False` singleton, here constructor equality with `PyVal.bool false`.  The exit
call happens only `if descended`, i.e. when the node was a dict, list or
tuple. -/
def visitAux {σ : Type} (h : σ → JsonCursor → Bool → σ × PyVal) (s : σ)
    (n : PyVal) (p : List Seg) : σ × List VEvent :=
  let c : JsonCursor := ⟨n, p⟩
  let s1r := h s c true
  if s1r.2 = PyVal.bool false then (s1r.1, [(c, true)])
  else
    match n with
    | .dict es =>
      let s2t := visitEntries h s1r.1 p es
      ((h s2t.1 c false).1, (c, true) :: (s2t.2 ++ [(c, false)]))
    | .mappingProxy es =>
      let s2t := visitEntries h s1r.1 p es
      ((h s2t.1 c false).1, (c, true) :: (s2t.2 ++ [(c, false)]))
    | .list xs =>
      let s2t := visitItems h s1r.1 p 0 xs
      ((h s2t.1 c false).1, (c, true) :: (s2t.2 ++ [(c, false)]))
    | .tuple xs =>
      let s2t := visitItems h s1r.1 p 0 xs
      ((h s2t.1 c false).1, (c, true) :: (s2t.2 ++ [(c, false)]))
    | _ => (s1r.1, [(c, true)])

/-- The `for key, value in cursor.node.items():` loop of `_recursive_visit`. -/
def visitEntries {σ : Type} (h : σ → JsonCursor → Bool → σ × PyVal) (s : σ)
    (p : List Seg) : List (String × PyVal) → σ × List VEvent
  | [] => (s, [])
  | (k, v) :: rest =>
    let s1t := visitAux h s v (p ++ [.key k])
    let s2t := visitEntries h s1t.1 p rest
    (s2t.1, s1t.2 ++ s2t.2)

/-- The `for index, item in enumerate(cursor.node):` loop of
`_recursive_visit`. -/
def visitItems {σ : Type} (h : σ → JsonCursor → Bool → σ × PyVal) (s : σ)
    (p : List Seg) (i : Nat) : List PyVal → σ × List VEvent
  | [] => (s, [])
  | x :: rest =>
    let s1t := visitAux h s x (p ++ [.idx i])
    let s2t := visitItems h s1t.1 p (i + 1) rest
    (s2t.1, s1t.2 ++ s2t.2)

end

/-- `JsonCursor.visit`: run `_recursive_visit` on the cursor itself.  The
Python method has no `return` statement, so its value is `None`; the model
returns that `None` alongside the final handler state and the call trace. -/
def JsonCursor.visit {σ : Type} (c : JsonCursor)
    (h : σ → JsonCursor → Bool → σ × PyVal) (s : σ) :
    (σ × List VEvent) × PyVal :=
  (visitAux h s c.node c.path, PyVal.none)

mutual

/-- Number of nodes of a tree (the node itself plus, for dicts and sequences,
all nodes of their children). -/
def nodeCount : PyVal → Nat
  | .dict es => 1 + nodeCountEntries es
  | .mappingProxy es => 1 + nodeCountEntries es
  | .list xs => 1 + nodeCountItems xs
  | .tuple xs => 1 + nodeCountItems xs
  | _ => 1

/-- Total node count of a dict's entries. -/
def nodeCountEntries : List (String × PyVal) → Nat
  | [] => 0
  | (_, v) :: rest => nodeCount v + nodeCountEntries rest

/-- Total node count of a sequence's items. -/
def nodeCountItems : List PyVal → Nat
  | [] => 0
  | x :: rest => nodeCount x + nodeCountItems rest

end

/-- Look a node up by a relative path, following the same classification the
traversals use: a key segment enters a dict, an index segment enters a list or
a tuple. -/
def lookupRel : PyVal → List Seg → Option PyVal
  | n, [] => some n
  | .dict es, .key k :: q =>
    match lookupKey es k with
    | some v => lookupRel v q
    | Option.none => Option.none
  | .mappingProxy es, .key k :: q =>
    match lookupKey es k with
    | some v => lookupRel v q
    | Option.none => Option.none
  | .list xs, .idx i :: q =>
    match xs.get? i with
    | some x => lookupRel x q
    | Option.none => Option.none
  | .tuple xs, .idx i :: q =>
    match xs.get? i with
    | some x => lookupRel x q
    | Option.none => Option.none
  | _, _ => Option.none

/-- Boolean test that a key list has no duplicates. -/
def keysNodup : List String → Bool
  | [] => true
  | k :: rest => !rest.contains k && keysNodup rest

mutual

/-- Well-formedness of a tree as a Python value: every dict in it has
pairwise-distinct keys (Python dicts cannot hold a key twice). -/
def WF : PyVal → Bool
  | .dict es => keysNodup (es.map Prod.fst) && WFEntries es
  | .mappingProxy es => keysNodup (es.map Prod.fst) && WFEntries es
  | .list xs => WFItems xs
  | .tuple xs => WFItems xs
  | _ => true

/-- `WF` on all values of a dict's entries. -/
def WFEntries : List (String × PyVal) → Bool
  | [] => true
  | (_, v) :: rest => WF v && WFEntries rest

/-- `WF` on all items of a sequence. -/
def WFItems : List PyVal → Bool
  | [] => true
  | x :: rest => WF x && WFItems rest

end

mutual

/-- True when every Mapping node of the tree is a genuine Python `dict` and
every Sequence node is a genuine Python `list` — no tuples and no non-dict
mappings anywhere: exactly the trees for which the `Mapping`/`Sequence`
classification used by `search`/`visit` agrees with the `isinstance` checks
of `__getattr__` and `__getitem__`. -/
def PlainContainers : PyVal → Bool
  | .dict es => PlainContainersEntries es
  | .mappingProxy _ => false
  | .list xs => PlainContainersItems xs
  | .tuple _ => false
  | _ => true

/-- `PlainContainers` on all values of a dict's entries. -/
def PlainContainersEntries : List (String × PyVal) → Bool
  | [] => true
  | (_, v) :: rest => PlainContainers v && PlainContainersEntries rest

/-- `PlainContainers` on all items of a sequence. -/
def PlainContainersItems : List PyVal → Bool
  | [] => true
  | x :: rest => PlainContainers x && PlainContainersItems rest

end

/-- Replay a recorded path from a cursor: a key segment via `childByKey`
(`__getattr__`), an index segment via `childByIndex` (`__getitem__`). -/
def replay (c : JsonCursor) : List Seg → Except NavError JsonCursor
  | [] => .ok c
  | .key k :: rest =>
    match c.childByKey k with
    | .ok c2 => replay c2 rest
    | .error e => .error e
  | .idx i :: rest =>
    match c.childByIndex i with
    | .ok c2 => replay c2 rest
    | .error e => .error e

/-- `isinstance(node, dict)` — the check `__getattr__` and `value` perform,
as opposed to the `Mapping` check of `on_dict`/`search`/`visit`.  A non-dict
Mapping (`mappingProxy`) satisfies the latter but not the former. -/
def isPyDict : PyVal → Bool
  | .dict _ => true
  | _ => false

/-- `isinstance(node, list)` — the check `__getitem__` and `value` perform.
A tuple is a `Sequence` (`on_list` is true on it) but not a `list`. -/
def isPyList : PyVal → Bool
  | .list _ => true
  | _ => false

/-- Number of entering calls in a visit trace. -/
def countEnter (t : List VEvent) : Nat :=
  (t.filter (fun e => e.2)).length

mutual

/-- The canonical, handler-independent call trace of a full (non-pruned)
visit of the subtree at `⟨n, p⟩`: entering call, children traces, and for
containers the exit call. -/
def ctNode : PyVal → List Seg → List VEvent
  | .dict es, p => (⟨.dict es, p⟩, true) :: (ctEntries p es ++ [(⟨.dict es, p⟩, false)])
  | .mappingProxy es, p =>
    (⟨.mappingProxy es, p⟩, true) ::
      (ctEntries p es ++ [(⟨.mappingProxy es, p⟩, false)])
  | .list xs, p => (⟨.list xs, p⟩, true) :: (ctItems p 0 xs ++ [(⟨.list xs, p⟩, false)])
  | .tuple xs, p => (⟨.tuple xs, p⟩, true) :: (ctItems p 0 xs ++ [(⟨.tuple xs, p⟩, false)])
  | n, p => [(⟨n, p⟩, true)]

/-- Canonical traces of a dict's entries, concatenated. -/
def ctEntries (p : List Seg) : List (String × PyVal) → List VEvent
  | [] => []
  | (k, v) :: rest => ctNode v (p ++ [.key k]) ++ ctEntries p rest

/-- Canonical traces of a sequence's items, concatenated. -/
def ctItems (p : List Seg) (i : Nat) : List PyVal → List VEvent
  | [] => []
  | x :: rest => ctNode x (p ++ [.idx i]) ++ ctItems p (i + 1) rest

end

/-- Cursors reachable from the root cursor over `t`: the root itself, one
navigation step from a reachable cursor, or a search result obtained at a
reachable cursor. -/
inductive Reachable (t : PyVal) : JsonCursor → Prop where
  | root : Reachable t ⟨t, []⟩
  | key {c c2 : JsonCursor} {k : String} :
      Reachable t c → c.childByKey k = .ok c2 → Reachable t c2
  | idx {c c2 : JsonCursor} {i : Int} :
      Reachable t c → c.childByIndex i = .ok c2 → Reachable t c2
  | found {c c2 : JsonCursor} {pred : JsonCursor → PyVal} :
      Reachable t c → c.search pred = some c2 → Reachable t c2

/-! A heap-level view of `get_path`, for the aliasing claim.  A Python list is
a mutable heap object; the model gives each path list an id in a store and
lets a cursor hold the id of its path list.  The source's `get_path` is
`return self.path`: it hands back the very reference stored in the cursor. -/

/-- The store of path-list objects, indexed by id. -/
abbrev PathStore := List (List Seg)

/-- A cursor whose `path` attribute is a reference into the store. -/
structure HeapCursor where
  node : PyVal
  pathRef : Nat

/-- Read a path list from the store. -/
def readPath (store : PathStore) (r : Nat) : List Seg :=
  store.getD r []

/-- Mutate the list object with id `r` in place (what a caller does to the
list it got back, e.g. `p.append(x)` or `p.clear()`). -/
def writePath (store : PathStore) (r : Nat) (v : List Seg) : PathStore :=
  store.set r v

/-- `JsonCursor.get_path` at heap level: `return self.path` returns the
reference held by the cursor — no copy is made. -/
def HeapCursor.get_path (c : HeapCursor) : Nat :=
  c.pathRef

/-! ## Claim theorems -/

/-- C9 — Classification predicates: `on_dict`/`on_list`/`on_data` are total
functions (they are Lean functions, so they never fail); for every node
exactly one of them is true; `on_data` equals `not (on_dict or on_list)`
by definition; and a string is never classified as a sequence while a list
is: `on_list "ab"` is false and `on_list ["a","b"]` is true. -/
theorem classification_exclusive_exhaustive (c : JsonCursor) :
    (c.on_dict && c.on_list) = false ∧
    (c.on_dict && c.on_data) = false ∧
    (c.on_list && c.on_data) = false ∧
    (c.on_dict || (c.on_list || c.on_data)) = true ∧
    c.on_data = (!c.on_dict && !c.on_list) ∧
    JsonCursor.on_list ⟨.str "ab", []⟩ = false ∧
    JsonCursor.on_list ⟨.list [.str "a", .str "b"], []⟩ = true ∧
    JsonCursor.on_list ⟨.bytes [97, 98], []⟩ = false := by
  obtain ⟨n, p⟩ := c
  cases n <;> simp [JsonCursor.on_dict, JsonCursor.on_list, JsonCursor.on_data]

/-- C6 counterexample — the claim "childByKey fails with `TypeMismatch`
exactly when the current node is not a Mapping" is false on the code: a
non-dict Mapping such as a `MappingProxyType` is classified as a Mapping
(`on_dict` is true, and the key is present), yet `__getattr__` checks
`isinstance(self.node, dict)` and raises the `TypeMismatch` error anyway. -/
theorem childByKey_claim_false :
    JsonCursor.on_dict ⟨.mappingProxy [("a", .int 1)], []⟩ = true ∧
    JsonCursor.childByKey ⟨.mappingProxy [("a", .int 1)], []⟩ "a" =
      .error .TypeMismatch := by
  decide

/-- C6 amended — `childByKey` (`__getattr__`): fails with `TypeMismatch`
exactly when the node is not a Python `dict` (so a non-dict Mapping such as
a `MappingProxyType` or `UserDict` also fails with `TypeMismatch`, though it
is classified as a Mapping); on a dict it fails with `KeyNotFound` exactly
when the key is absent; otherwise it returns the child value with the key
appended to the path. -/
theorem childByKey_spec (c : JsonCursor) (name : String) :
    (c.childByKey name = .error .TypeMismatch ↔ isPyDict c.node = false) ∧
    (∀ es, c.node = .dict es →
      (c.childByKey name = .error .KeyNotFound ↔ lookupKey es name = Option.none) ∧
      (∀ v, lookupKey es name = some v →
        c.childByKey name = .ok ⟨v, c.path ++ [.key name]⟩)) := by
  obtain ⟨n, p⟩ := c
  constructor
  · cases n <;> simp [JsonCursor.childByKey, isPyDict]
    cases h : lookupKey _ name <;> simp
  · rintro es rfl
    constructor
    · cases h : lookupKey es name <;> simp [JsonCursor.childByKey, h]
    · intro v hv
      simp [JsonCursor.childByKey, hv]

/-- C6 witness: a concrete key lookup succeeds as stated. -/
theorem childByKey_spec_witness :
    JsonCursor.childByKey ⟨.dict [("a", .int 1), ("b", .int 2)], []⟩ "b" =
      .ok ⟨.int 2, [.key "b"]⟩ :=
  (childByKey_spec ⟨.dict [("a", .int 1), ("b", .int 2)], []⟩ "b").2
    [("a", .int 1), ("b", .int 2)] rfl |>.2 (.int 2) (by decide)

/-- C5 counterexample — the claim "childByIndex fails with `NotASequence`
exactly when the node is not classified as a Sequence" is false on the code:
a tuple is classified as a Sequence (`on_list` is true, and index 0 is in
range), yet `__getitem__` checks `isinstance(self.node, list)` and raises the
`NotASequence` error anyway. -/
theorem childByIndex_claim_false :
    JsonCursor.on_list ⟨.tuple [.int 1], []⟩ = true ∧
    JsonCursor.childByIndex ⟨.tuple [.int 1], []⟩ 0 = .error .NotASequence := by
  decide

/-- C5 amended — `childByIndex` fails with `NotASequence` exactly when the
node is not a Python `list` (so a non-list sequence such as a tuple fails with
`NotASequence` even though it is classified as a Sequence); on a list it fails
with `IndexOutOfRange` exactly when the index is outside `[0, length)`, and
otherwise returns the element with the index appended to the path. -/
theorem childByIndex_spec (c : JsonCursor) (i : Int) :
    (c.childByIndex i = .error .NotASequence ↔ isPyList c.node = false) ∧
    (∀ xs, c.node = .list xs →
      (c.childByIndex i = .error .IndexOutOfRange ↔ ¬(0 ≤ i ∧ i < xs.length)) ∧
      (0 ≤ i → i < xs.length →
        ∃ v, xs.get? i.toNat = some v ∧
          c.childByIndex i = .ok ⟨v, c.path ++ [.idx i.toNat]⟩)) := by
  obtain ⟨n, p⟩ := c
  constructor
  · cases n <;> simp [JsonCursor.childByIndex, isPyList]
    split <;> simp
  · rintro xs rfl
    constructor
    · by_cases h : 0 ≤ i ∧ i < xs.length <;> simp [JsonCursor.childByIndex, h]
    · intro h0 hlen
      refine ⟨xs.get ⟨i.toNat, by omega⟩, ?_, ?_⟩
      · simp [List.get?_eq_get]
      · simp [JsonCursor.childByIndex]
        split
        · rfl
        · omega

/-- C5 witness for the amended claim: a concrete in-range list access. -/
theorem childByIndex_spec_witness :
    ∃ v, [PyVal.str "x", PyVal.str "y"].get? 1 = some v ∧
      JsonCursor.childByIndex ⟨.list [.str "x", .str "y"], []⟩ 1 =
        .ok ⟨v, [.idx 1]⟩ :=
  (childByIndex_spec ⟨.list [.str "x", .str "y"], []⟩ 1).2
    [.str "x", .str "y"] rfl |>.2 (by decide) (by decide)

/-- C7 counterexample — the claim "value() fails with `NotATerminal` exactly
when the node is a Mapping or a Sequence" is false on the code: a tuple is a
Sequence (`on_list` is true), yet `value()` checks `isinstance(self.node,
(dict, list))` and happily returns the tuple. -/
theorem value_claim_false :
    JsonCursor.on_list ⟨.tuple [.int 1], []⟩ = true ∧
    JsonCursor.value ⟨.tuple [.int 1], []⟩ = .ok (.tuple [.int 1]) := by
  decide

/-- C7 amended — `value()` fails with `NotATerminal` exactly when the node is
a Python `dict` or `list`; on every other node (all scalars, but also a
non-list sequence such as a tuple, or a non-dict Mapping) it returns the node
itself, unchanged. -/
theorem value_spec (c : JsonCursor) :
    (c.value = .error .NotATerminal ↔ (isPyDict c.node || isPyList c.node) = true) ∧
    ((isPyDict c.node || isPyList c.node) = false → c.value = .ok c.node) := by
  obtain ⟨n, p⟩ := c
  cases n <;> simp [JsonCursor.value, isPyDict, isPyList]

/-- C7 witness for the amended claim: a concrete scalar is returned as is. -/
theorem value_spec_witness :
    JsonCursor.value ⟨.str "Alice", [.key "user", .key "name"]⟩ = .ok (.str "Alice") :=
  (value_spec ⟨.str "Alice", [.key "user", .key "name"]⟩).2 (by decide)

/-- C3 — Pruning is triggered only by the exact boolean `False`.  If the
entering call for a node returns exactly `False` (`continue_descent is
False`), the call trace for that node is just the entering call: no child is
visited and no exit call is issued.  If it returns anything else — including
the falsy values `0`, `""` and `None`, which are different Python objects
from `False` — nothing is suppressed: a Mapping or sequence node (dict,
non-dict Mapping, list or tuple) has its children visited by the entry loops
and then receives its exit call, and a terminal node has no exit call
anyway. -/
theorem visit_prunes_iff_exactly_false {σ : Type}
    (h : σ → JsonCursor → Bool → σ × PyVal) (s : σ) (c : JsonCursor) :
    ((h s c true).2 = PyVal.bool false →
      (c.visit h s).1 = ((h s c true).1, [(c, true)])) ∧
    ((h s c true).2 ≠ PyVal.bool false →
      (isContainer c.node = false → (c.visit h s).1 = ((h s c true).1, [(c, true)])) ∧
      (∀ es, c.node = .dict es →
        (c.visit h s).1 =
          ((h (visitEntries h (h s c true).1 c.path es).1 c false).1,
           (c, true) :: ((visitEntries h (h s c true).1 c.path es).2 ++ [(c, false)]))) ∧
      (∀ es, c.node = .mappingProxy es →
        (c.visit h s).1 =
          ((h (visitEntries h (h s c true).1 c.path es).1 c false).1,
           (c, true) :: ((visitEntries h (h s c true).1 c.path es).2 ++ [(c, false)]))) ∧
      (∀ xs, c.node = .list xs →
        (c.visit h s).1 =
          ((h (visitItems h (h s c true).1 c.path 0 xs).1 c false).1,
           (c, true) :: ((visitItems h (h s c true).1 c.path 0 xs).2 ++ [(c, false)]))) ∧
      (∀ xs, c.node = .tuple xs →
        (c.visit h s).1 =
          ((h (visitItems h (h s c true).1 c.path 0 xs).1 c false).1,
           (c, true) :: ((visitItems h (h s c true).1 c.path 0 xs).2 ++ [(c, false)])))) ∧
    (PyVal.int 0 ≠ PyVal.bool false ∧ PyVal.str "" ≠ PyVal.bool false ∧
      PyVal.none ≠ PyVal.bool false) := by
  obtain ⟨n, p⟩ := c
  refine ⟨?_, ?_, by decide⟩
  · intro hf
    cases n <;> simp [JsonCursor.visit, visitAux, hf]
  · intro hf
    refine ⟨?_, ?_, ?_, ?_, ?_⟩
    · intro hterm
      cases n <;> simp_all [JsonCursor.visit, visitAux, isContainer]
    · rintro es rfl
      simp [JsonCursor.visit, visitAux, hf]
    · rintro es rfl
      simp [JsonCursor.visit, visitAux, hf]
    · rintro xs rfl
      simp [JsonCursor.visit, visitAux, hf]
    · rintro xs rfl
      simp [JsonCursor.visit, visitAux, hf]

/-- C3 witness: with a concrete handler that returns `False` at the dict
under key "a" and `0` (falsy but not `False`) everywhere else, the theorem's
prune branch applies at the inner dict. -/
theorem visit_prunes_iff_exactly_false_witness :
    (JsonCursor.visit ⟨.dict [("x", .int 5)], [.key "a"]⟩
      (fun (_ : Unit) c ent =>
        ((), if ent && (c.path == [.key "a"]) then PyVal.bool false else PyVal.int 0))
      ()).1 = ((), [(⟨.dict [("x", .int 5)], [.key "a"]⟩, true)]) :=
  (visit_prunes_iff_exactly_false
    (fun (_ : Unit) c ent =>
      ((), if ent && (c.path == [.key "a"]) then PyVal.bool false else PyVal.int 0))
    () ⟨.dict [("x", .int 5)], [.key "a"]⟩).1 (by decide)

/-- First-match decomposition of `List.find?`: it returns `a` exactly when the
list splits as a prefix of non-matches, then `a` (matching), then anything. -/
theorem find?_eq_some_split {α : Type} (p : α → Bool) (l : List α) (a : α) :
    l.find? p = some a ↔
      ∃ l1 l2, l = l1 ++ a :: l2 ∧ (∀ x ∈ l1, p x = false) ∧ p a = true := by
  induction l with
  | nil => simp
  | cons x rest ih =>
    rw [List.find?_cons]
    by_cases hx : p x = true
    · simp only [hx]
      constructor
      · rintro h
        obtain rfl : x = a := by simpa using h
        exact ⟨[], rest, by simp, by simp, hx⟩
      · rintro ⟨l1, l2, hsplit, hpre, hpa⟩
        cases l1 with
        | nil => simp at hsplit; simp [hsplit.1]
        | cons y l1' =>
          obtain ⟨rfl, _⟩ : x = y ∧ rest = l1' ++ a :: l2 := by
            simpa using hsplit
          have := hpre x (by simp)
          simp [this] at hx
    · have hx' : p x = false := by simpa using hx
      simp only [hx']
      rw [ih]
      constructor
      · rintro ⟨l1, l2, hsplit, hpre, hpa⟩
        exact ⟨x :: l1, l2, by simp [hsplit], by
          intro z hz
          rcases List.mem_cons.mp hz with h | h
          · exact h ▸ hx'
          · exact hpre z h, hpa⟩
      · rintro ⟨l1, l2, hsplit, hpre, hpa⟩
        cases l1 with
        | nil =>
          obtain ⟨rfl, _⟩ : x = a ∧ rest = l2 := by simpa using hsplit
          simp [hpa] at hx'
        | cons y l1' =>
          obtain ⟨rfl, hrest⟩ : x = y ∧ rest = l1' ++ a :: l2 := by
            simpa using hsplit
          exact ⟨l1', l2, hrest, fun z hz => hpre z (by simp [hz]), hpa⟩

theorem searchItems_eq_find (pred : JsonCursor → PyVal) (p : List Seg)
    {xs : List PyVal}
    (ih : ∀ x ∈ xs, ∀ q, searchAux pred x q =
      (preorderAux x q).find? (fun d => truthy (pred d))) :
    ∀ i, searchItems pred p i xs =
      (preorderItems p i xs).find? (fun d => truthy (pred d)) := by
  induction xs with
  | nil => intro i; simp [searchItems, preorderItems]
  | cons x rest hr =>
    intro i
    have h1 : searchAux pred x (p ++ [Seg.idx i]) =
        (preorderAux x (p ++ [Seg.idx i])).find? (fun d => truthy (pred d)) :=
      ih x (by simp) (p ++ [Seg.idx i])
    have h2 : searchItems pred p (i + 1) rest =
        (preorderItems p (i + 1) rest).find? (fun d => truthy (pred d)) :=
      hr (fun z hz q => ih z (by simp [hz]) q) (i + 1)
    simp only [searchItems, preorderItems, List.find?_append, ← h1, ← h2]
    cases hx : searchAux pred x (p ++ [Seg.idx i]) <;> simp [Option.or, hx]

theorem searchEntries_eq_find (pred : JsonCursor → PyVal) (p : List Seg)
    {es : List (String × PyVal)}
    (ih : ∀ e ∈ es, ∀ q, searchAux pred e.2 q =
      (preorderAux e.2 q).find? (fun d => truthy (pred d))) :
    searchEntries pred p es =
      (preorderEntries p es).find? (fun d => truthy (pred d)) := by
  induction es with
  | nil => simp [searchEntries, preorderEntries]
  | cons e rest hr =>
    obtain ⟨k, v⟩ := e
    have h1 : searchAux pred v (p ++ [Seg.key k]) =
        (preorderAux v (p ++ [Seg.key k])).find? (fun d => truthy (pred d)) :=
      ih (k, v) (by simp) (p ++ [Seg.key k])
    have h2 : searchEntries pred p rest =
        (preorderEntries p rest).find? (fun d => truthy (pred d)) :=
      hr (fun z hz q => ih z (by simp [hz]) q)
    simp only [searchEntries, preorderEntries, List.find?_append, ← h1, ← h2]
    cases hx : searchAux pred v (p ++ [Seg.key k]) <;> simp [Option.or, hx]

/-- `_recursive_search` examines exactly the pre-order enumeration of the
subtree and returns its first truthy element. -/
theorem searchAux_eq_find (pred : JsonCursor → PyVal) :
    ∀ (n : PyVal) (p : List Seg),
      searchAux pred n p = (preorderAux n p).find? (fun d => truthy (pred d)) := by
  intro n
  induction n using PyVal.inductionOn with
  | hdict es ih =>
    intro p
    rw [searchAux, preorderAux, List.find?_cons]
    cases ht : truthy (pred ⟨.dict es, p⟩) with
    | true => simp [ht]
    | false =>
      simp only [ht]
      show searchEntries pred p es =
        (preorderEntries p es).find? (fun d => truthy (pred d))
      exact searchEntries_eq_find pred p (fun e he q => ih e he q)
  | hproxy es ih =>
    intro p
    rw [searchAux, preorderAux, List.find?_cons]
    cases ht : truthy (pred ⟨.mappingProxy es, p⟩) with
    | true => simp [ht]
    | false =>
      simp only [ht]
      show searchEntries pred p es =
        (preorderEntries p es).find? (fun d => truthy (pred d))
      exact searchEntries_eq_find pred p (fun e he q => ih e he q)
  | hlist xs ih =>
    intro p
    rw [searchAux, preorderAux, List.find?_cons]
    cases ht : truthy (pred ⟨.list xs, p⟩) with
    | true => simp [ht]
    | false =>
      simp only [ht]
      show searchItems pred p 0 xs =
        (preorderItems p 0 xs).find? (fun d => truthy (pred d))
      exact searchItems_eq_find pred p ih 0
  | htuple xs ih =>
    intro p
    rw [searchAux, preorderAux, List.find?_cons]
    cases ht : truthy (pred ⟨.tuple xs, p⟩) with
    | true => simp [ht]
    | false =>
      simp only [ht]
      show searchItems pred p 0 xs =
        (preorderItems p 0 xs).find? (fun d => truthy (pred d))
      exact searchItems_eq_find pred p ih 0
  | hstr s =>
    intro p
    rw [searchAux, preorderAux, List.find?_cons]
    all_goals try (intro _ h; simp at h)
    cases ht : truthy (pred ⟨.str s, p⟩) with
    | true => simp [ht]
    | false =>
      simp only [ht]
      rfl
  | hbytes bs =>
    intro p
    rw [searchAux, preorderAux, List.find?_cons]
    all_goals try (intro _ h; simp at h)
    cases ht : truthy (pred ⟨.bytes bs, p⟩) with
    | true => simp [ht]
    | false =>
      simp only [ht]
      rfl
  | hint n =>
    intro p
    rw [searchAux, preorderAux, List.find?_cons]
    all_goals try (intro _ h; simp at h)
    cases ht : truthy (pred ⟨.int n, p⟩) with
    | true => simp [ht]
    | false =>
      simp only [ht]
      rfl
  | hbool b =>
    intro p
    rw [searchAux, preorderAux, List.find?_cons]
    all_goals try (intro _ h; simp at h)
    cases ht : truthy (pred ⟨.bool b, p⟩) with
    | true => simp [ht]
    | false =>
      simp only [ht]
      rfl
  | hnone =>
    intro p
    rw [searchAux, preorderAux, List.find?_cons]
    all_goals try (intro _ h; simp at h)
    cases ht : truthy (pred ⟨.none, p⟩) with
    | true => simp [ht]
    | false =>
      simp only [ht]
      rfl

/-- C2 — Search correctness: `search` equals the first truthy element of the
pre-order enumeration of the subtree (root first, mapping entries in order,
sequence items in index order); consequently it returns `none` exactly when
no cursor of the subtree satisfies the predicate, and when it returns a
cursor, that cursor satisfies the predicate and every cursor strictly before
it in pre-order does not. -/
theorem search_correct (pred : JsonCursor → PyVal) (c : JsonCursor) :
    c.search pred = (preorderCursors c).find? (fun d => truthy (pred d)) ∧
    (c.search pred = Option.none ↔
      ∀ d ∈ preorderCursors c, truthy (pred d) = false) ∧
    (∀ d, c.search pred = some d →
      truthy (pred d) = true ∧
      ∃ pre post, preorderCursors c = pre ++ d :: post ∧
        ∀ x ∈ pre, truthy (pred x) = false) := by
  have hmain : c.search pred =
      (preorderCursors c).find? (fun d => truthy (pred d)) :=
    searchAux_eq_find pred c.node c.path
  refine ⟨hmain, ?_, ?_⟩
  · rw [hmain, List.find?_eq_none]
    constructor
    · intro hall d hd
      simpa using hall d hd
    · intro hall d hd
      simp [hall d hd]
  · intro d hd
    rw [hmain, find?_eq_some_split] at hd
    obtain ⟨pre, post, hsplit, hpre, hpa⟩ := hd
    exact ⟨hpa, pre, post, hsplit, hpre⟩

/-- C2 witness: on the spec's end-to-end example tree, searching for the
string "y" finds the cursor at path ["user", "tags", 1], which satisfies the
predicate. -/
theorem search_correct_witness :
    truthy ((fun (d : JsonCursor) => PyVal.bool (decide (d.node = .str "y")))
      ⟨.str "y", [.key "user", .key "tags", .idx 1]⟩) = true :=
  ((search_correct (fun (d : JsonCursor) => PyVal.bool (decide (d.node = .str "y")))
    ⟨.dict [("user", .dict [("name", .str "Alice"),
      ("tags", .list [.str "x", .str "y"])])], []⟩).2.2
    ⟨.str "y", [.key "user", .key "tags", .idx 1]⟩ (by decide)).1

/-- C10 — Search matches on any truthy predicate result, not only the boolean
`True`: the search outcome depends on the predicate only through the
truthiness of its results (two predicates with pointwise equally-truthy
results search identically), and whenever the predicate's result on a cursor
is truthy — be it `True`, a non-empty string or a non-zero number — that
cursor is a match: searching from it returns it at once. -/
theorem search_truthy_match (pred pred2 : JsonCursor → PyVal) (c : JsonCursor)
    (hsame : ∀ d, truthy (pred d) = truthy (pred2 d)) :
    c.search pred = c.search pred2 ∧
    (truthy (pred c) = true → c.search pred = some c) := by
  constructor
  · have hfn : (fun d => truthy (pred d)) = (fun d => truthy (pred2 d)) :=
      funext hsame
    show searchAux pred c.node c.path = searchAux pred2 c.node c.path
    rw [searchAux_eq_find pred c.node c.path,
      searchAux_eq_find pred2 c.node c.path, hfn]
  · intro ht
    obtain ⟨n, p⟩ := c
    show searchAux pred n p = some ⟨n, p⟩
    rw [searchAux.eq_def]
    simp [ht]

/-- C10 witness: a predicate returning the non-empty string "hit" selects the
root exactly as one returning `True` does. -/
theorem search_truthy_match_witness :
    JsonCursor.search ⟨.list [.int 7], []⟩ (fun _ => .str "hit") =
      JsonCursor.search ⟨.list [.int 7], []⟩ (fun _ => .bool true) ∧
    JsonCursor.search ⟨.list [.int 7], []⟩ (fun _ => .str "hit") =
      some ⟨.list [.int 7], []⟩ :=
  ⟨(search_truthy_match (fun _ => .str "hit") (fun _ => .bool true)
      ⟨.list [.int 7], []⟩ (fun _ => rfl)).1,
   (search_truthy_match (fun _ => .str "hit") (fun _ => .bool true)
      ⟨.list [.int 7], []⟩ (fun _ => rfl)).2 rfl⟩

/-- Bridge between the boolean prefix test and the prefix relation. -/
theorem isPrefixOf_eq_true_iff {l1 l2 : List Seg} :
    l1.isPrefixOf l2 = true ↔ l1 <+: l2 :=
  List.isPrefixOf_iff_prefix

/-- Two path extensions that are both prefixes of the same path agree on the
first added segment. -/
theorem seg_prefix_eq {p r : List Seg} {s s2 : Seg} {q : List Seg}
    (h1 : (p ++ [s]) <+: r) (h2 : ((p ++ [s2]) ++ q) <+: r) : s = s2 := by
  have h2' : (p ++ [s2]) <+: r := (List.prefix_append (p ++ [s2]) q).trans h2
  have h12 : (p ++ [s]) <+: (p ++ [s2]) :=
    List.prefix_of_prefix_length_le h1 h2' (by simp)
  have heq : p ++ [s] = p ++ [s2] := h12.eq_of_length (by simp)
  simpa using List.append_cancel_left heq

theorem ctEntries_trace_ext_of_ih {es : List (String × PyVal)}
    (ih : ∀ x ∈ es, ∀ p2, ∀ e ∈ ctNode x.2 p2, p2 <+: e.1.path) :
    ∀ p, ∀ e ∈ ctEntries p es, ∃ k v, (k, v) ∈ es ∧ (p ++ [Seg.key k]) <+: e.1.path := by
  induction es with
  | nil => intro p e he; simp [ctEntries] at he
  | cons x rest hr =>
    obtain ⟨k, v⟩ := x
    intro p e he
    rw [ctEntries, List.mem_append] at he
    rcases he with he | he
    · exact ⟨k, v, by simp, ih (k, v) (by simp) (p ++ [Seg.key k]) e he⟩
    · obtain ⟨k2, v2, hm, hpre⟩ := hr (fun z hz => ih z (by simp [hz])) p e he
      exact ⟨k2, v2, by simp [hm], hpre⟩

theorem ctItems_trace_ext_of_ih {xs : List PyVal}
    (ih : ∀ x ∈ xs, ∀ p2, ∀ e ∈ ctNode x p2, p2 <+: e.1.path) :
    ∀ p i, ∀ e ∈ ctItems p i xs,
      ∃ j x, xs.get? j = some x ∧ (p ++ [Seg.idx (i + j)]) <+: e.1.path := by
  induction xs with
  | nil => intro p i e he; simp [ctItems] at he
  | cons x rest hr =>
    intro p i e he
    rw [ctItems, List.mem_append] at he
    rcases he with he | he
    · exact ⟨0, x, by simp, by
        simpa using ih x (by simp) (p ++ [Seg.idx i]) e he⟩
    · obtain ⟨j, y, hj, hpre⟩ := hr (fun z hz => ih z (by simp [hz])) p (i + 1) e he
      exact ⟨j + 1, y, by simpa using hj, by
        have : i + 1 + j = i + (j + 1) := by omega
        rwa [this] at hpre⟩

/-- Every event of a canonical subtree trace has the subtree's root path as a
prefix of its path. -/
theorem ctNode_trace_extends :
    ∀ n p, ∀ e ∈ ctNode n p, p <+: e.1.path := by
  intro n
  induction n using PyVal.inductionOn with
  | hdict es ih =>
    intro p e he
    rw [ctNode] at he
    rcases List.mem_cons.mp he with rfl | he
    · simp
    · rw [List.mem_append] at he
      rcases he with he | he
      · obtain ⟨k, v, _, hpre⟩ := ctEntries_trace_ext_of_ih ih p e he
        exact (List.prefix_append p [Seg.key k]).trans hpre
      · obtain rfl : e = (⟨.dict es, p⟩, false) := by simpa using he
        simp
  | hproxy es ih =>
    intro p e he
    rw [ctNode] at he
    rcases List.mem_cons.mp he with rfl | he
    · simp
    · rw [List.mem_append] at he
      rcases he with he | he
      · obtain ⟨k, v, _, hpre⟩ := ctEntries_trace_ext_of_ih ih p e he
        exact (List.prefix_append p [Seg.key k]).trans hpre
      · obtain rfl : e = (⟨.mappingProxy es, p⟩, false) := by simpa using he
        simp
  | hlist xs ih =>
    intro p e he
    rw [ctNode] at he
    rcases List.mem_cons.mp he with rfl | he
    · simp
    · rw [List.mem_append] at he
      rcases he with he | he
      · obtain ⟨j, x, _, hpre⟩ := ctItems_trace_ext_of_ih ih p 0 e he
        exact (List.prefix_append p [Seg.idx (0 + j)]).trans hpre
      · obtain rfl : e = (⟨.list xs, p⟩, false) := by simpa using he
        simp
  | htuple xs ih =>
    intro p e he
    rw [ctNode] at he
    rcases List.mem_cons.mp he with rfl | he
    · simp
    · rw [List.mem_append] at he
      rcases he with he | he
      · obtain ⟨j, x, _, hpre⟩ := ctItems_trace_ext_of_ih ih p 0 e he
        exact (List.prefix_append p [Seg.idx (0 + j)]).trans hpre
      · obtain rfl : e = (⟨.tuple xs, p⟩, false) := by simpa using he
        simp
  | hstr s => intro p e he; obtain rfl : e = (⟨.str s, p⟩, true) := by simpa [ctNode] using he
              simp
  | hbytes bs => intro p e he
                 obtain rfl : e = (⟨.bytes bs, p⟩, true) := by simpa [ctNode] using he
                 simp
  | hint n => intro p e he
              obtain rfl : e = (⟨.int n, p⟩, true) := by simpa [ctNode] using he
              simp
  | hbool b => intro p e he
               obtain rfl : e = (⟨.bool b, p⟩, true) := by simpa [ctNode] using he
               simp
  | hnone => intro p e he
             obtain rfl : e = (⟨.none, p⟩, true) := by simpa [ctNode] using he
             simp

theorem countEnter_append (t1 t2 : List VEvent) :
    countEnter (t1 ++ t2) = countEnter t1 + countEnter t2 := by
  simp [countEnter, List.filter_append]

theorem countEnter_ctEntries_of_ih {es : List (String × PyVal)}
    (ih : ∀ x ∈ es, ∀ p2, countEnter (ctNode x.2 p2) = nodeCount x.2) :
    ∀ p, countEnter (ctEntries p es) = nodeCountEntries es := by
  induction es with
  | nil => intro p; simp [ctEntries, nodeCountEntries, countEnter]
  | cons x rest hr =>
    obtain ⟨k, v⟩ := x
    intro p
    rw [ctEntries, countEnter_append, nodeCountEntries,
      ih (k, v) (by simp) (p ++ [Seg.key k]),
      hr (fun z hz => ih z (by simp [hz])) p]

theorem countEnter_ctItems_of_ih {xs : List PyVal}
    (ih : ∀ x ∈ xs, ∀ p2, countEnter (ctNode x p2) = nodeCount x) :
    ∀ p i, countEnter (ctItems p i xs) = nodeCountItems xs := by
  induction xs with
  | nil => intro p i; simp [ctItems, nodeCountItems, countEnter]
  | cons x rest hr =>
    intro p i
    rw [ctItems, countEnter_append, nodeCountItems,
      ih x (by simp) (p ++ [Seg.idx i]),
      hr (fun z hz => ih z (by simp [hz])) p (i + 1)]

/-- The canonical trace contains exactly one entering call per node of the
subtree. -/
theorem countEnter_ctNode :
    ∀ n p, countEnter (ctNode n p) = nodeCount n := by
  intro n
  induction n using PyVal.inductionOn with
  | hdict es ih =>
    intro p
    rw [ctNode, nodeCount]
    have := countEnter_ctEntries_of_ih ih p
    simp [countEnter, List.filter_append] at this ⊢
    omega
  | hproxy es ih =>
    intro p
    rw [ctNode, nodeCount]
    have := countEnter_ctEntries_of_ih ih p
    simp [countEnter, List.filter_append] at this ⊢
    omega
  | hlist xs ih =>
    intro p
    rw [ctNode, nodeCount]
    have := countEnter_ctItems_of_ih ih p 0
    simp [countEnter, List.filter_append] at this ⊢
    omega
  | htuple xs ih =>
    intro p
    rw [ctNode, nodeCount]
    have := countEnter_ctItems_of_ih ih p 0
    simp [countEnter, List.filter_append] at this ⊢
    omega
  | hstr s => intro p; simp [ctNode, nodeCount, countEnter]
  | hbytes bs => intro p; simp [ctNode, nodeCount, countEnter]
  | hint n => intro p; simp [ctNode, nodeCount, countEnter]
  | hbool b => intro p; simp [ctNode, nodeCount, countEnter]
  | hnone => intro p; simp [ctNode, nodeCount, countEnter]

theorem visitEntries_trace_of_ih {σ : Type} {h : σ → JsonCursor → Bool → σ × PyVal}
    {es : List (String × PyVal)}
    (ih : ∀ x ∈ es, ∀ (s : σ) p2, (visitAux h s x.2 p2).2 = ctNode x.2 p2) :
    ∀ (s : σ) p, (visitEntries h s p es).2 = ctEntries p es := by
  induction es with
  | nil => intro s p; simp [visitEntries, ctEntries]
  | cons x rest hr =>
    obtain ⟨k, v⟩ := x
    intro s p
    rw [visitEntries, ctEntries]
    simp only
    rw [ih (k, v) (by simp) s (p ++ [Seg.key k]),
      hr (fun z hz => ih z (by simp [hz])) _ p]

theorem visitItems_trace_of_ih {σ : Type} {h : σ → JsonCursor → Bool → σ × PyVal}
    {xs : List PyVal}
    (ih : ∀ x ∈ xs, ∀ (s : σ) p2, (visitAux h s x p2).2 = ctNode x p2) :
    ∀ (s : σ) p i, (visitItems h s p i xs).2 = ctItems p i xs := by
  induction xs with
  | nil => intro s p i; simp [visitItems, ctItems]
  | cons x rest hr =>
    intro s p i
    rw [visitItems, ctItems]
    simp only
    rw [ih x (by simp) s (p ++ [Seg.idx i]),
      hr (fun z hz => ih z (by simp [hz])) _ p (i + 1)]

/-- For a handler that never returns exactly `False` from an entering call,
the call trace of `_recursive_visit` is the canonical full trace of the
subtree, whatever the handler state. -/
theorem visitAux_trace {σ : Type} (h : σ → JsonCursor → Bool → σ × PyVal)
    (hnp : ∀ (s : σ) d, (h s d true).2 ≠ PyVal.bool false) :
    ∀ n (s : σ) p, (visitAux h s n p).2 = ctNode n p := by
  intro n
  induction n using PyVal.inductionOn with
  | hdict es ih =>
    intro s p
    rw [visitAux, ctNode]
    simp only [hnp s ⟨.dict es, p⟩, if_false]
    rw [visitEntries_trace_of_ih ih _ p]
  | hproxy es ih =>
    intro s p
    rw [visitAux, ctNode]
    simp only [hnp s ⟨.mappingProxy es, p⟩, if_false]
    rw [visitEntries_trace_of_ih ih _ p]
  | hlist xs ih =>
    intro s p
    rw [visitAux, ctNode]
    simp only [hnp s ⟨.list xs, p⟩, if_false]
    rw [visitItems_trace_of_ih ih _ p 0]
  | htuple xs ih =>
    intro s p
    rw [visitAux, ctNode]
    simp only [hnp s ⟨.tuple xs, p⟩, if_false]
    rw [visitItems_trace_of_ih ih _ p 0]
  | hstr s2 =>
    intro s p
    rw [visitAux.eq_def]
    split <;> try simp [ctNode]
    all_goals simp_all
  | hbytes bs =>
    intro s p
    rw [visitAux.eq_def]
    split <;> try simp [ctNode]
    all_goals simp_all
  | hint n2 =>
    intro s p
    rw [visitAux.eq_def]
    split <;> try simp [ctNode]
    all_goals simp_all
  | hbool b =>
    intro s p
    rw [visitAux.eq_def]
    split <;> try simp [ctNode]
    all_goals simp_all
  | hnone =>
    intro s p
    rw [visitAux.eq_def]
    split <;> try simp [ctNode]
    all_goals simp_all

/-- Standalone form of `ctEntries_trace_ext_of_ih`. -/
theorem ctEntries_trace_extends (es : List (String × PyVal)) (p : List Seg) :
    ∀ e ∈ ctEntries p es, ∃ k v, (k, v) ∈ es ∧ (p ++ [Seg.key k]) <+: e.1.path :=
  ctEntries_trace_ext_of_ih (fun x _ => ctNode_trace_extends x.2) p

/-- Standalone form of `ctItems_trace_ext_of_ih`. -/
theorem ctItems_trace_extends (xs : List PyVal) (p : List Seg) (i : Nat) :
    ∀ e ∈ ctItems p i xs,
      ∃ j x, xs.get? j = some x ∧ (p ++ [Seg.idx (i + j)]) <+: e.1.path :=
  ctItems_trace_ext_of_ih (fun x _ => ctNode_trace_extends x) p i

/-- A strict extension of `p` is never equal to `p`. -/
theorem path_ne_of_seg_ext {p r : List Seg} {s : Seg}
    (hpre : (p ++ [s]) <+: r) : r ≠ p := by
  intro h2
  subst h2
  have := hpre.length_le
  simp at this

/-- Filtering by a finer condition ignores an intermediate coarser filter. -/
theorem filter_filter_of_imp {α : Type} (l : List α) (f g : α → Bool)
    (himp : ∀ a, f a = true → g a = true) :
    (l.filter g).filter f = l.filter f := by
  induction l with
  | nil => simp
  | cons x rest ih =>
    by_cases hf : f x = true
    · have hg := himp x hf
      rw [List.filter_cons_of_pos hg, List.filter_cons_of_pos hf,
        List.filter_cons_of_pos hf, ih]
    · have hf' : ¬ f x = true := hf
      by_cases hg : g x = true
      · rw [List.filter_cons_of_pos hg, List.filter_cons_of_neg hf',
          List.filter_cons_of_neg hf', ih]
      · rw [List.filter_cons_of_neg hg, List.filter_cons_of_neg hf', ih]

/-- Within a canonical subtree trace, only the subtree root's own entering
and (for containers) exit events carry exactly the root path. -/
theorem ctNode_filter_self (n : PyVal) (p : List Seg) :
    (ctNode n p).filter (fun e => e.1.path == p) =
      if isContainer n then [(⟨n, p⟩, true), (⟨n, p⟩, false)]
      else [(⟨n, p⟩, true)] := by
  have hmid : ∀ (t : List VEvent),
      (∀ e ∈ t, ∃ s2 : Seg, (p ++ [s2]) <+: e.1.path) →
      t.filter (fun e => e.1.path == p) = [] := by
    intro t ht
    rw [List.filter_eq_nil_iff]
    intro e he
    obtain ⟨s2, hpre⟩ := ht e he
    simpa using path_ne_of_seg_ext hpre
  cases n with
  | dict es =>
    rw [ctNode, isContainer]
    rw [List.filter_cons_of_pos (by simp), List.filter_append,
      List.filter_cons_of_pos (by simp),
      hmid (ctEntries p es) (fun e he => by
        obtain ⟨k, v, _, hpre⟩ := ctEntries_trace_extends es p e he
        exact ⟨Seg.key k, hpre⟩)]
    simp
  | mappingProxy es =>
    rw [ctNode, isContainer]
    rw [List.filter_cons_of_pos (by simp), List.filter_append,
      List.filter_cons_of_pos (by simp),
      hmid (ctEntries p es) (fun e he => by
        obtain ⟨k, v, _, hpre⟩ := ctEntries_trace_extends es p e he
        exact ⟨Seg.key k, hpre⟩)]
    simp
  | list xs =>
    rw [ctNode, isContainer]
    rw [List.filter_cons_of_pos (by simp), List.filter_append,
      List.filter_cons_of_pos (by simp),
      hmid (ctItems p 0 xs) (fun e he => by
        obtain ⟨j, x, _, hpre⟩ := ctItems_trace_extends xs p 0 e he
        exact ⟨Seg.idx (0 + j), hpre⟩)]
    simp
  | tuple xs =>
    rw [ctNode, isContainer]
    rw [List.filter_cons_of_pos (by simp), List.filter_append,
      List.filter_cons_of_pos (by simp),
      hmid (ctItems p 0 xs) (fun e he => by
        obtain ⟨j, x, _, hpre⟩ := ctItems_trace_extends xs p 0 e he
        exact ⟨Seg.idx (0 + j), hpre⟩)]
    simp
  | str s => simp [ctNode, isContainer]
  | bytes bs => simp [ctNode, isContainer]
  | int n2 => simp [ctNode, isContainer]
  | bool b => simp [ctNode, isContainer]
  | none => simp [ctNode, isContainer]

theorem keysNodup_cons {a : String} {l : List String}
    (h : keysNodup (a :: l) = true) : a ∉ l ∧ keysNodup l = true := by
  rw [keysNodup, Bool.and_eq_true] at h
  refine ⟨?_, h.2⟩
  intro hm
  have hc : l.elem a = true := List.elem_iff.mpr hm
  have := h.1
  rw [Bool.not_eq_true'] at this
  rw [show l.contains a = l.elem a from rfl, hc] at this
  cases this

theorem WFEntries_mem {es : List (String × PyVal)}
    (hwf : WFEntries es = true) : ∀ k v, (k, v) ∈ es → WF v = true := by
  induction es with
  | nil => intro k v hm; simp at hm
  | cons x rest hr =>
    obtain ⟨k1, v1⟩ := x
    rw [WFEntries, Bool.and_eq_true] at hwf
    intro k v hm
    rcases List.mem_cons.mp hm with heq | hm2
    · obtain ⟨rfl, rfl⟩ : k1 = k ∧ v1 = v := by
        constructor <;> injection heq <;> simp_all
      exact hwf.1
    · exact hr hwf.2 k v hm2

theorem WFItems_mem {xs : List PyVal}
    (hwf : WFItems xs = true) : ∀ x ∈ xs, WF x = true := by
  induction xs with
  | nil => intro x hm; simp at hm
  | cons x1 rest hr =>
    rw [WFItems, Bool.and_eq_true] at hwf
    intro x hm
    rcases List.mem_cons.mp hm with rfl | hm2
    · exact hwf.1
    · exact hr hwf.2 x hm2

theorem lookupKey_mem {es : List (String × PyVal)} {k : String} {v : PyVal}
    (h : lookupKey es k = some v) : (k, v) ∈ es := by
  induction es with
  | nil => simp [lookupKey] at h
  | cons x rest hr =>
    obtain ⟨k1, v1⟩ := x
    rw [lookupKey] at h
    by_cases hk : k1 = k
    · subst hk
      rw [if_pos rfl] at h
      obtain rfl : v1 = v := by simpa using h
      simp
    · rw [if_neg hk] at h
      exact List.mem_cons.mpr (Or.inr (hr h))

/-- A path extended by a segment and more is never a prefix of the base path. -/
theorem not_isPrefixOf_ext (p : List Seg) (s : Seg) (q : List Seg) :
    ((p ++ [s]) ++ q).isPrefixOf p = false := by
  rw [Bool.eq_false_iff]
  intro hpre
  rw [isPrefixOf_eq_true_iff] at hpre
  have := hpre.length_le
  simp at this

theorem ctEntries_filter_sub (q2 : List Seg) :
    ∀ (es : List (String × PyVal)) (p : List Seg) (k : String) (v : PyVal),
      keysNodup (es.map Prod.fst) = true → lookupKey es k = some v →
      (ctEntries p es).filter
          (fun e => ((p ++ [Seg.key k]) ++ q2).isPrefixOf e.1.path) =
        (ctNode v (p ++ [Seg.key k])).filter
          (fun e => ((p ++ [Seg.key k]) ++ q2).isPrefixOf e.1.path) := by
  intro es
  induction es with
  | nil => intro p k v _ hlk; simp [lookupKey] at hlk
  | cons x rest hr =>
    obtain ⟨k1, v1⟩ := x
    intro p k v hnd hlk
    rw [List.map_cons] at hnd
    obtain ⟨hk1l, hndr⟩ := keysNodup_cons hnd
    rw [ctEntries, List.filter_append]
    rw [lookupKey] at hlk
    by_cases hk : k1 = k
    · subst hk
      rw [if_pos rfl] at hlk
      obtain rfl : v1 = v := by simpa using hlk
      have hrest : (ctEntries p rest).filter
          (fun e => ((p ++ [Seg.key k1]) ++ q2).isPrefixOf e.1.path) = [] := by
        rw [List.filter_eq_nil_iff]
        intro e he hfil
        obtain ⟨k2, v2, hm, hpre⟩ := ctEntries_trace_extends rest p e he
        rw [isPrefixOf_eq_true_iff] at hfil
        have hseg : Seg.key k2 = Seg.key k1 := seg_prefix_eq hpre hfil
        obtain rfl : k2 = k1 := by simpa using hseg
        exact hk1l (List.mem_map.mpr ⟨(k2, v2), hm, rfl⟩)
      rw [hrest]
      simp
    · rw [if_neg hk] at hlk
      have hhead : (ctNode v1 (p ++ [Seg.key k1])).filter
          (fun e => ((p ++ [Seg.key k]) ++ q2).isPrefixOf e.1.path) = [] := by
        rw [List.filter_eq_nil_iff]
        intro e he hfil
        have hpre := ctNode_trace_extends v1 (p ++ [Seg.key k1]) e he
        rw [isPrefixOf_eq_true_iff] at hfil
        have hseg : Seg.key k1 = Seg.key k := seg_prefix_eq hpre hfil
        exact hk (by simpa using hseg)
      rw [hhead]
      simpa using hr p k v hndr hlk

theorem ctItems_filter_sub (q2 : List Seg) :
    ∀ (xs : List PyVal) (p : List Seg) (i j : Nat) (x : PyVal),
      xs.get? j = some x →
      (ctItems p i xs).filter
          (fun e => ((p ++ [Seg.idx (i + j)]) ++ q2).isPrefixOf e.1.path) =
        (ctNode x (p ++ [Seg.idx (i + j)])).filter
          (fun e => ((p ++ [Seg.idx (i + j)]) ++ q2).isPrefixOf e.1.path) := by
  intro xs
  induction xs with
  | nil => intro p i j x hg; simp at hg
  | cons x1 rest hr =>
    intro p i j x hg
    rw [ctItems, List.filter_append]
    cases j with
    | zero =>
      obtain rfl : x1 = x := by simpa using hg
      have hrest : (ctItems p (i + 1) rest).filter
          (fun e => ((p ++ [Seg.idx (i + 0)]) ++ q2).isPrefixOf e.1.path) = [] := by
        rw [List.filter_eq_nil_iff]
        intro e he hfil
        obtain ⟨j2, y, _, hpre⟩ := ctItems_trace_extends rest p (i + 1) e he
        rw [isPrefixOf_eq_true_iff] at hfil
        have hseg : Seg.idx (i + 1 + j2) = Seg.idx (i + 0) := seg_prefix_eq hpre hfil
        simp at hseg
        omega
      rw [hrest]
      simp
    | succ j2 =>
      have hg2 : rest.get? j2 = some x := by simpa using hg
      have hhead : (ctNode x1 (p ++ [Seg.idx i])).filter
          (fun e => ((p ++ [Seg.idx (i + (j2 + 1))]) ++ q2).isPrefixOf e.1.path) = [] := by
        rw [List.filter_eq_nil_iff]
        intro e he hfil
        have hpre := ctNode_trace_extends x1 (p ++ [Seg.idx i]) e he
        rw [isPrefixOf_eq_true_iff] at hfil
        have hseg : Seg.idx i = Seg.idx (i + (j2 + 1)) := seg_prefix_eq hpre hfil
        simp at hseg
      rw [hhead]
      have heq : i + (j2 + 1) = i + 1 + j2 := by omega
      rw [heq]
      simpa using hr p (i + 1) j2 x hg2

/-- Filtering the canonical trace of a subtree by "path extends `p ++ q`"
yields exactly the canonical trace of the node found at relative path `q`. -/
theorem ctNode_filter_sub :
    ∀ (q : List Seg) (n : PyVal) (p : List Seg) (m : PyVal),
      WF n = true → lookupRel n q = some m →
      (ctNode n p).filter (fun e => (p ++ q).isPrefixOf e.1.path) =
        ctNode m (p ++ q) := by
  intro q
  induction q with
  | nil =>
    intro n p m _ hlk
    obtain rfl : n = m := by simpa [lookupRel] using hlk
    rw [List.append_nil]
    rw [List.filter_eq_self.mpr]
    intro e he
    rw [isPrefixOf_eq_true_iff]
    exact ctNode_trace_extends n p e he
  | cons s q2 ih =>
    intro n p m hwf hlk
    cases s with
    | key k =>
      cases n with
      | dict es =>
        rw [lookupRel] at hlk
        cases hlkk : lookupKey es k with
        | none => rw [hlkk] at hlk; simp at hlk
        | some v =>
          rw [hlkk] at hlk
          rw [WF, Bool.and_eq_true] at hwf
          have hwfv : WF v = true := WFEntries_mem hwf.2 k v (lookupKey_mem hlkk)
          simp only [List.append_cons p (Seg.key k) q2]
          rw [ctNode, List.filter_cons_of_neg (by
            rw [not_isPrefixOf_ext p (Seg.key k) q2]; simp),
            List.filter_append,
            List.filter_cons_of_neg (by
              rw [not_isPrefixOf_ext p (Seg.key k) q2]; simp)]
          rw [List.filter_nil, List.append_nil]
          rw [ctEntries_filter_sub q2 es p k v hwf.1 hlkk]
          exact ih v (p ++ [Seg.key k]) m hwfv hlk
      | mappingProxy es =>
        rw [lookupRel] at hlk
        cases hlkk : lookupKey es k with
        | none => rw [hlkk] at hlk; simp at hlk
        | some v =>
          rw [hlkk] at hlk
          rw [WF, Bool.and_eq_true] at hwf
          have hwfv : WF v = true := WFEntries_mem hwf.2 k v (lookupKey_mem hlkk)
          simp only [List.append_cons p (Seg.key k) q2]
          rw [ctNode, List.filter_cons_of_neg (by
            rw [not_isPrefixOf_ext p (Seg.key k) q2]; simp),
            List.filter_append,
            List.filter_cons_of_neg (by
              rw [not_isPrefixOf_ext p (Seg.key k) q2]; simp)]
          rw [List.filter_nil, List.append_nil]
          rw [ctEntries_filter_sub q2 es p k v hwf.1 hlkk]
          exact ih v (p ++ [Seg.key k]) m hwfv hlk
      | list xs => rw [lookupRel] at hlk; all_goals simp_all
      | tuple xs => rw [lookupRel] at hlk; all_goals simp_all
      | str s2 => rw [lookupRel] at hlk; all_goals simp_all
      | bytes bs => rw [lookupRel] at hlk; all_goals simp_all
      | int n2 => rw [lookupRel] at hlk; all_goals simp_all
      | bool b => rw [lookupRel] at hlk; all_goals simp_all
      | none => rw [lookupRel] at hlk; all_goals simp_all
    | idx j =>
      cases n with
      | dict es => rw [lookupRel] at hlk; all_goals simp_all
      | mappingProxy es => rw [lookupRel] at hlk; all_goals simp_all
      | list xs =>
        rw [lookupRel] at hlk
        cases hg : xs.get? j with
        | none => rw [hg] at hlk; simp at hlk
        | some x =>
          rw [hg] at hlk
          rw [WF] at hwf
          have hwfx : WF x = true := WFItems_mem hwf x (List.get?_mem hg)
          simp only [List.append_cons p (Seg.idx j) q2]
          rw [ctNode, List.filter_cons_of_neg (by
            rw [not_isPrefixOf_ext p (Seg.idx j) q2]; simp),
            List.filter_append,
            List.filter_cons_of_neg (by
              rw [not_isPrefixOf_ext p (Seg.idx j) q2]; simp)]
          rw [List.filter_nil, List.append_nil]
          have := ctItems_filter_sub q2 xs p 0 j x hg
          rw [Nat.zero_add] at this
          rw [this]
          exact ih x (p ++ [Seg.idx j]) m hwfx hlk
      | tuple xs =>
        rw [lookupRel] at hlk
        cases hg : xs.get? j with
        | none => rw [hg] at hlk; simp at hlk
        | some x =>
          rw [hg] at hlk
          rw [WF] at hwf
          have hwfx : WF x = true := WFItems_mem hwf x (List.get?_mem hg)
          simp only [List.append_cons p (Seg.idx j) q2]
          rw [ctNode, List.filter_cons_of_neg (by
            rw [not_isPrefixOf_ext p (Seg.idx j) q2]; simp),
            List.filter_append,
            List.filter_cons_of_neg (by
              rw [not_isPrefixOf_ext p (Seg.idx j) q2]; simp)]
          rw [List.filter_nil, List.append_nil]
          have := ctItems_filter_sub q2 xs p 0 j x hg
          rw [Nat.zero_add] at this
          rw [this]
          exact ih x (p ++ [Seg.idx j]) m hwfx hlk
      | str s2 => rw [lookupRel] at hlk; all_goals simp_all
      | bytes bs => rw [lookupRel] at hlk; all_goals simp_all
      | int n2 => rw [lookupRel] at hlk; all_goals simp_all
      | bool b => rw [lookupRel] at hlk; all_goals simp_all
      | none => rw [lookupRel] at hlk; all_goals simp_all

/-- C4 — Visit call pairing.  For any handler that never returns exactly
`False` from an entering call (so nothing is pruned), and any cursor over a
well-formed tree (mappings have no duplicate keys, which Python guarantees):
the number of entering calls equals the node count of the subtree; for every
node of the subtree (located by its relative path `q`) that is a container —
dict or sequence, empty ones included — the trace holds exactly one entering
and one exit call carrying that node's path, in that order, and the events
whose paths extend that node's path form a contiguous block that starts with
its entering call, ends with its exit call, and holds exactly its
descendants' calls strictly in between; every terminal node receives exactly
one entering call and no exit call; and `visit` itself returns Python's
`None`. -/
theorem visit_call_pairing {σ : Type} (h : σ → JsonCursor → Bool → σ × PyVal)
    (s : σ) (c : JsonCursor) (hWF : WF c.node = true)
    (hnp : ∀ (s2 : σ) (d : JsonCursor), (h s2 d true).2 ≠ PyVal.bool false) :
    (c.visit h s).2 = PyVal.none ∧
    countEnter (c.visit h s).1.2 = nodeCount c.node ∧
    (∀ q m, lookupRel c.node q = some m →
      (isContainer m = true →
        (c.visit h s).1.2.filter (fun e => e.1.path == c.path ++ q) =
          [(⟨m, c.path ++ q⟩, true), (⟨m, c.path ++ q⟩, false)] ∧
        ∃ inner,
          (c.visit h s).1.2.filter
              (fun e => (c.path ++ q).isPrefixOf e.1.path) =
            (⟨m, c.path ++ q⟩, true) :: (inner ++ [(⟨m, c.path ++ q⟩, false)]) ∧
          ∀ e ∈ inner, (c.path ++ q) <+: e.1.path ∧ e.1.path ≠ c.path ++ q) ∧
      (isContainer m = false →
        (c.visit h s).1.2.filter (fun e => e.1.path == c.path ++ q) =
          [(⟨m, c.path ++ q⟩, true)])) := by
  have htr : (c.visit h s).1.2 = ctNode c.node c.path :=
    visitAux_trace h hnp c.node s c.path
  refine ⟨rfl, ?_, ?_⟩
  · rw [htr]
    exact countEnter_ctNode c.node c.path
  · intro q m hlk
    have hpr : (c.visit h s).1.2.filter
        (fun e => (c.path ++ q).isPrefixOf e.1.path) = ctNode m (c.path ++ q) := by
      rw [htr]
      exact ctNode_filter_sub q c.node c.path m hWF hlk
    have hcomp := filter_filter_of_imp ((c.visit h s).1.2)
      (fun e => e.1.path == c.path ++ q)
      (fun e => (c.path ++ q).isPrefixOf e.1.path)
      (fun a ha => by
        rw [isPrefixOf_eq_true_iff]
        have h2 : a.1.path = c.path ++ q := by simpa using ha
        rw [h2])
    have hself : (c.visit h s).1.2.filter (fun e => e.1.path == c.path ++ q) =
        (ctNode m (c.path ++ q)).filter (fun e => e.1.path == c.path ++ q) := by
      rw [← hcomp, hpr]
    refine ⟨?_, ?_⟩
    · intro hcont
      refine ⟨?_, ?_⟩
      · rw [hself, ctNode_filter_self, if_pos hcont]
      · cases m with
        | dict es =>
          refine ⟨ctEntries (c.path ++ q) es, ?_, ?_⟩
          · rw [hpr, ctNode]
          · intro e he
            obtain ⟨k, v, _, hpre2⟩ := ctEntries_trace_extends es (c.path ++ q) e he
            exact ⟨(List.prefix_append (c.path ++ q) [Seg.key k]).trans hpre2,
              path_ne_of_seg_ext hpre2⟩
        | mappingProxy es =>
          refine ⟨ctEntries (c.path ++ q) es, ?_, ?_⟩
          · rw [hpr, ctNode]
          · intro e he
            obtain ⟨k, v, _, hpre2⟩ := ctEntries_trace_extends es (c.path ++ q) e he
            exact ⟨(List.prefix_append (c.path ++ q) [Seg.key k]).trans hpre2,
              path_ne_of_seg_ext hpre2⟩
        | list xs =>
          refine ⟨ctItems (c.path ++ q) 0 xs, ?_, ?_⟩
          · rw [hpr, ctNode]
          · intro e he
            obtain ⟨j, x, _, hpre2⟩ := ctItems_trace_extends xs (c.path ++ q) 0 e he
            exact ⟨(List.prefix_append (c.path ++ q) [Seg.idx (0 + j)]).trans hpre2,
              path_ne_of_seg_ext hpre2⟩
        | tuple xs =>
          refine ⟨ctItems (c.path ++ q) 0 xs, ?_, ?_⟩
          · rw [hpr, ctNode]
          · intro e he
            obtain ⟨j, x, _, hpre2⟩ := ctItems_trace_extends xs (c.path ++ q) 0 e he
            exact ⟨(List.prefix_append (c.path ++ q) [Seg.idx (0 + j)]).trans hpre2,
              path_ne_of_seg_ext hpre2⟩
        | str s2 => simp [isContainer] at hcont
        | bytes bs => simp [isContainer] at hcont
        | int n2 => simp [isContainer] at hcont
        | bool b => simp [isContainer] at hcont
        | none => simp [isContainer] at hcont
    · intro hterm
      rw [hself, ctNode_filter_self, if_neg (by simp [hterm])]

/-- C4 witness: on the concrete tree `{"a": [1]}` with a handler returning
`None` everywhere, the entering-call count is the node count (3). -/
theorem visit_call_pairing_witness :
    countEnter ((JsonCursor.visit ⟨.dict [("a", .list [.int 1])], []⟩
      (fun (_ : Unit) _ _ => ((), PyVal.none)) ()).1.2) =
      nodeCount (.dict [("a", .list [.int 1])]) :=
  (visit_call_pairing (fun (_ : Unit) _ _ => ((), PyVal.none)) ()
    ⟨.dict [("a", .list [.int 1])], []⟩ (by decide)
    (fun _ _ hfalse => PyVal.noConfusion hfalse)).2.1

theorem PlainContainersEntries_mem {es : List (String × PyVal)}
    (hnt : PlainContainersEntries es = true) : ∀ k v, (k, v) ∈ es → PlainContainers v = true := by
  induction es with
  | nil => intro k v hm; simp at hm
  | cons x rest hr =>
    obtain ⟨k1, v1⟩ := x
    rw [PlainContainersEntries, Bool.and_eq_true] at hnt
    intro k v hm
    rcases List.mem_cons.mp hm with heq | hm2
    · obtain ⟨rfl, rfl⟩ : k1 = k ∧ v1 = v := by
        constructor <;> injection heq <;> simp_all
      exact hnt.1
    · exact hr hnt.2 k v hm2

theorem PlainContainersItems_mem {xs : List PyVal}
    (hnt : PlainContainersItems xs = true) : ∀ x ∈ xs, PlainContainers x = true := by
  induction xs with
  | nil => intro x hm; simp at hm
  | cons x1 rest hr =>
    rw [PlainContainersItems, Bool.and_eq_true] at hnt
    intro x hm
    rcases List.mem_cons.mp hm with rfl | hm2
    · exact hnt.1
    · exact hr hnt.2 x hm2

/-- Nodes reached by `lookupRel` inside a well-formed tree are well-formed. -/
theorem lookupRel_WF :
    ∀ (q : List Seg) (n m : PyVal), WF n = true → lookupRel n q = some m →
      WF m = true := by
  intro q
  induction q with
  | nil =>
    intro n m hwf hlk
    obtain rfl : n = m := by simpa [lookupRel] using hlk
    exact hwf
  | cons s q2 ih =>
    intro n m hwf hlk
    cases s with
    | key k =>
      cases n with
      | dict es =>
        rw [lookupRel] at hlk
        cases hlkk : lookupKey es k with
        | none => rw [hlkk] at hlk; simp at hlk
        | some v =>
          rw [hlkk] at hlk
          rw [WF, Bool.and_eq_true] at hwf
          exact ih v m (WFEntries_mem hwf.2 k v (lookupKey_mem hlkk)) hlk
      | mappingProxy es =>
        rw [lookupRel] at hlk
        cases hlkk : lookupKey es k with
        | none => rw [hlkk] at hlk; simp at hlk
        | some v =>
          rw [hlkk] at hlk
          rw [WF, Bool.and_eq_true] at hwf
          exact ih v m (WFEntries_mem hwf.2 k v (lookupKey_mem hlkk)) hlk
      | list xs => rw [lookupRel] at hlk; all_goals simp_all
      | tuple xs => rw [lookupRel] at hlk; all_goals simp_all
      | str s2 => rw [lookupRel] at hlk; all_goals simp_all
      | bytes bs => rw [lookupRel] at hlk; all_goals simp_all
      | int n2 => rw [lookupRel] at hlk; all_goals simp_all
      | bool b => rw [lookupRel] at hlk; all_goals simp_all
      | none => rw [lookupRel] at hlk; all_goals simp_all
    | idx j =>
      cases n with
      | dict es => rw [lookupRel] at hlk; all_goals simp_all
      | mappingProxy es => rw [lookupRel] at hlk; all_goals simp_all
      | list xs =>
        rw [lookupRel] at hlk
        cases hg : xs.get? j with
        | none => rw [hg] at hlk; simp at hlk
        | some x =>
          rw [hg] at hlk
          rw [WF] at hwf
          exact ih x m (WFItems_mem hwf x (List.get?_mem hg)) hlk
      | tuple xs =>
        rw [lookupRel] at hlk
        cases hg : xs.get? j with
        | none => rw [hg] at hlk; simp at hlk
        | some x =>
          rw [hg] at hlk
          rw [WF] at hwf
          exact ih x m (WFItems_mem hwf x (List.get?_mem hg)) hlk
      | str s2 => rw [lookupRel] at hlk; all_goals simp_all
      | bytes bs => rw [lookupRel] at hlk; all_goals simp_all
      | int n2 => rw [lookupRel] at hlk; all_goals simp_all
      | bool b => rw [lookupRel] at hlk; all_goals simp_all
      | none => rw [lookupRel] at hlk; all_goals simp_all

/-- Nodes reached by `lookupRel` inside a tuple-free tree are tuple-free. -/
theorem lookupRel_PlainContainers :
    ∀ (q : List Seg) (n m : PyVal), PlainContainers n = true → lookupRel n q = some m →
      PlainContainers m = true := by
  intro q
  induction q with
  | nil =>
    intro n m hnt hlk
    obtain rfl : n = m := by simpa [lookupRel] using hlk
    exact hnt
  | cons s q2 ih =>
    intro n m hnt hlk
    cases s with
    | key k =>
      cases n with
      | dict es =>
        rw [lookupRel] at hlk
        cases hlkk : lookupKey es k with
        | none => rw [hlkk] at hlk; simp at hlk
        | some v =>
          rw [hlkk] at hlk
          rw [PlainContainers] at hnt
          exact ih v m (PlainContainersEntries_mem hnt k v (lookupKey_mem hlkk)) hlk
      | mappingProxy es => rw [PlainContainers] at hnt; cases hnt
      | list xs => rw [lookupRel] at hlk; all_goals simp_all
      | tuple xs => rw [lookupRel] at hlk; all_goals simp_all
      | str s2 => rw [lookupRel] at hlk; all_goals simp_all
      | bytes bs => rw [lookupRel] at hlk; all_goals simp_all
      | int n2 => rw [lookupRel] at hlk; all_goals simp_all
      | bool b => rw [lookupRel] at hlk; all_goals simp_all
      | none => rw [lookupRel] at hlk; all_goals simp_all
    | idx j =>
      cases n with
      | dict es => rw [lookupRel] at hlk; all_goals simp_all
      | mappingProxy es => rw [lookupRel] at hlk; all_goals simp_all
      | list xs =>
        rw [lookupRel] at hlk
        cases hg : xs.get? j with
        | none => rw [hg] at hlk; simp at hlk
        | some x =>
          rw [hg] at hlk
          rw [PlainContainers] at hnt
          exact ih x m (PlainContainersItems_mem hnt x (List.get?_mem hg)) hlk
      | tuple xs => rw [PlainContainers] at hnt; cases hnt
      | str s2 => rw [lookupRel] at hlk; all_goals simp_all
      | bytes bs => rw [lookupRel] at hlk; all_goals simp_all
      | int n2 => rw [lookupRel] at hlk; all_goals simp_all
      | bool b => rw [lookupRel] at hlk; all_goals simp_all
      | none => rw [lookupRel] at hlk; all_goals simp_all

theorem replay_append (p1 : List Seg) :
    ∀ (c : JsonCursor) (p2 : List Seg),
      replay c (p1 ++ p2) =
        match replay c p1 with
        | .ok c1 => replay c1 p2
        | .error e => .error e := by
  induction p1 with
  | nil => intro c p2; simp [replay]
  | cons s rest ih =>
    intro c p2
    cases s with
    | key k =>
      rw [List.cons_append, replay, replay]
      cases c.childByKey k with
      | ok c2 => exact ih c2 p2
      | error e => rfl
    | idx i =>
      rw [List.cons_append, replay, replay]
      cases c.childByIndex i with
      | ok c2 => exact ih c2 p2
      | error e => rfl

/-- Inversion of a successful `childByKey`. -/
theorem childByKey_ok {c c2 : JsonCursor} {k : String}
    (h : c.childByKey k = .ok c2) :
    ∃ es v, c.node = .dict es ∧ lookupKey es k = some v ∧
      c2 = ⟨v, c.path ++ [Seg.key k]⟩ := by
  obtain ⟨n, p⟩ := c
  cases n <;> simp [JsonCursor.childByKey] at h
  case dict es =>
    cases hlk : lookupKey es k with
    | none => rw [hlk] at h; simp at h
    | some v =>
      rw [hlk] at h
      simp at h
      exact ⟨es, v, rfl, hlk, h.symm⟩

/-- Inversion of a successful `childByIndex`. -/
theorem childByIndex_ok {c c2 : JsonCursor} {i : Int}
    (h : c.childByIndex i = .ok c2) :
    ∃ xs v, c.node = .list xs ∧ 0 ≤ i ∧ xs.get? i.toNat = some v ∧
      c2 = ⟨v, c.path ++ [Seg.idx i.toNat]⟩ := by
  obtain ⟨n, p⟩ := c
  cases n <;> simp [JsonCursor.childByIndex] at h
  case list xs =>
    split at h
    · next hin =>
      simp at h
      refine ⟨xs, _, rfl, hin.1, ?_, h.symm⟩
      rw [List.get?_eq_get (by omega)]
      simp [List.get_eq_getElem]
    · simp at h

/-- Replaying a relative path to a looked-up node succeeds when the tree has
no tuples. -/
theorem replay_lookupRel :
    ∀ (q : List Seg) (n : PyVal) (p : List Seg) (m : PyVal),
      PlainContainers n = true → lookupRel n q = some m →
      replay ⟨n, p⟩ q = .ok ⟨m, p ++ q⟩ := by
  intro q
  induction q with
  | nil =>
    intro n p m _ hlk
    obtain rfl : n = m := by simpa [lookupRel] using hlk
    simp [replay]
  | cons s q2 ih =>
    intro n p m hnt hlk
    cases s with
    | key k =>
      cases n with
      | dict es =>
        rw [lookupRel] at hlk
        cases hlkk : lookupKey es k with
        | none => rw [hlkk] at hlk; simp at hlk
        | some v =>
          rw [hlkk] at hlk
          rw [PlainContainers] at hnt
          rw [replay]
          have hstep : JsonCursor.childByKey ⟨.dict es, p⟩ k =
              .ok ⟨v, p ++ [Seg.key k]⟩ := by
            simp [JsonCursor.childByKey, hlkk]
          rw [hstep]
          show replay ⟨v, p ++ [Seg.key k]⟩ q2 =
            Except.ok ⟨m, p ++ Seg.key k :: q2⟩
          rw [List.append_cons p (Seg.key k) q2]
          exact ih v (p ++ [Seg.key k]) m
            (PlainContainersEntries_mem hnt k v (lookupKey_mem hlkk)) hlk
      | mappingProxy es => rw [PlainContainers] at hnt; cases hnt
      | list xs => rw [lookupRel] at hlk; all_goals simp_all
      | tuple xs => rw [PlainContainers] at hnt; cases hnt
      | str s2 => rw [lookupRel] at hlk; all_goals simp_all
      | bytes bs => rw [lookupRel] at hlk; all_goals simp_all
      | int n2 => rw [lookupRel] at hlk; all_goals simp_all
      | bool b => rw [lookupRel] at hlk; all_goals simp_all
      | none => rw [lookupRel] at hlk; all_goals simp_all
    | idx j =>
      cases n with
      | dict es => rw [lookupRel] at hlk; all_goals simp_all
      | mappingProxy es => rw [lookupRel] at hlk; all_goals simp_all
      | list xs =>
        rw [lookupRel] at hlk
        cases hg : xs.get? j with
        | none => rw [hg] at hlk; simp at hlk
        | some x =>
          rw [hg] at hlk
          rw [PlainContainers] at hnt
          obtain ⟨hj, hget⟩ := List.get?_eq_some.mp hg
          have hin : 0 ≤ (j : Int) ∧ (j : Int) < ((xs.length : Nat) : Int) :=
            ⟨Int.natCast_nonneg j, by exact_mod_cast hj⟩
          have hstep : JsonCursor.childByIndex ⟨.list xs, p⟩ (j : Int) =
              .ok ⟨x, p ++ [Seg.idx j]⟩ := by
            simp only [JsonCursor.childByIndex, dif_pos hin, Int.toNat_natCast,
              Except.ok.injEq, JsonCursor.mk.injEq]
            exact ⟨hget, trivial⟩
          rw [replay, hstep]
          show replay ⟨x, p ++ [Seg.idx j]⟩ q2 =
            Except.ok ⟨m, p ++ Seg.idx j :: q2⟩
          rw [List.append_cons p (Seg.idx j) q2]
          exact ih x (p ++ [Seg.idx j]) m
            (PlainContainersItems_mem hnt x (List.get?_mem hg)) hlk
      | tuple xs => rw [PlainContainers] at hnt; cases hnt
      | str s2 => rw [lookupRel] at hlk; all_goals simp_all
      | bytes bs => rw [lookupRel] at hlk; all_goals simp_all
      | int n2 => rw [lookupRel] at hlk; all_goals simp_all
      | bool b => rw [lookupRel] at hlk; all_goals simp_all
      | none => rw [lookupRel] at hlk; all_goals simp_all

theorem searchEntries_result {pred : JsonCursor → PyVal} {es : List (String × PyVal)}
    (ih : ∀ x ∈ es, ∀ p2 c3, WF x.2 = true → searchAux pred x.2 p2 = some c3 →
      ∃ q, c3.path = p2 ++ q ∧ lookupRel x.2 q = some c3.node) :
    ∀ (p : List Seg) (c2 : JsonCursor),
      keysNodup (es.map Prod.fst) = true → WFEntries es = true →
      searchEntries pred p es = some c2 →
      ∃ k v q, lookupKey es k = some v ∧ c2.path = (p ++ [Seg.key k]) ++ q ∧
        lookupRel v q = some c2.node := by
  induction es with
  | nil => intro p c2 _ _ h; rw [searchEntries] at h; cases h
  | cons x rest hr =>
    obtain ⟨k1, v1⟩ := x
    intro p c2 hnd hwfe h
    rw [List.map_cons] at hnd
    obtain ⟨hk1l, hndr⟩ := keysNodup_cons hnd
    rw [WFEntries, Bool.and_eq_true] at hwfe
    rw [searchEntries] at h
    cases hx : searchAux pred v1 (p ++ [Seg.key k1]) with
    | some r =>
      rw [hx] at h
      obtain rfl : r = c2 := by simpa using h
      obtain ⟨q, hpath, hlk⟩ := ih (k1, v1) (by simp) (p ++ [Seg.key k1]) r hwfe.1 hx
      exact ⟨k1, v1, q, by simp [lookupKey], hpath, hlk⟩
    | none =>
      rw [hx] at h
      change searchEntries pred p rest = some c2 at h
      obtain ⟨k, v, q, hlkk, hpath, hlk⟩ :=
        hr (fun z hz => ih z (by simp [hz])) p c2 hndr hwfe.2 h
      have hk1k : k1 ≠ k := by
        intro heq
        subst heq
        exact hk1l (List.mem_map.mpr ⟨(k1, v), lookupKey_mem hlkk, rfl⟩)
      refine ⟨k, v, q, ?_, hpath, hlk⟩
      rw [lookupKey, if_neg hk1k]
      exact hlkk

theorem searchItems_result {pred : JsonCursor → PyVal} {xs : List PyVal}
    (ih : ∀ x ∈ xs, ∀ p2 c3, WF x = true → searchAux pred x p2 = some c3 →
      ∃ q, c3.path = p2 ++ q ∧ lookupRel x q = some c3.node) :
    ∀ (p : List Seg) (i : Nat) (c2 : JsonCursor),
      WFItems xs = true →
      searchItems pred p i xs = some c2 →
      ∃ j x q, xs.get? j = some x ∧ c2.path = (p ++ [Seg.idx (i + j)]) ++ q ∧
        lookupRel x q = some c2.node := by
  induction xs with
  | nil => intro p i c2 _ h; rw [searchItems] at h; cases h
  | cons x1 rest hr =>
    intro p i c2 hwfi h
    rw [WFItems, Bool.and_eq_true] at hwfi
    rw [searchItems] at h
    cases hx : searchAux pred x1 (p ++ [Seg.idx i]) with
    | some r =>
      rw [hx] at h
      obtain rfl : r = c2 := by simpa using h
      obtain ⟨q, hpath, hlk⟩ := ih x1 (by simp) (p ++ [Seg.idx i]) r hwfi.1 hx
      exact ⟨0, x1, q, by simp, by simpa using hpath, hlk⟩
    | none =>
      rw [hx] at h
      change searchItems pred p (i + 1) rest = some c2 at h
      obtain ⟨j2, x, q, hg, hpath, hlk⟩ :=
        hr (fun z hz => ih z (by simp [hz])) p (i + 1) c2 hwfi.2 h
      refine ⟨j2 + 1, x, q, by simpa using hg, ?_, hlk⟩
      have heq : i + (j2 + 1) = i + 1 + j2 := by omega
      rw [heq]
      exact hpath

/-- A successful search inside a well-formed tree lands on a node located at
a relative path below the start cursor. -/
theorem searchAux_result (pred : JsonCursor → PyVal) :
    ∀ (n : PyVal) (p : List Seg) (c2 : JsonCursor), WF n = true →
      searchAux pred n p = some c2 →
      ∃ q, c2.path = p ++ q ∧ lookupRel n q = some c2.node := by
  intro n
  induction n using PyVal.inductionOn with
  | hdict es ih =>
    intro p c2 hwf h
    rw [searchAux.eq_def] at h
    split at h
    · obtain rfl : (⟨PyVal.dict es, p⟩ : JsonCursor) = c2 := by simpa using h
      exact ⟨[], by simp, by simp [lookupRel]⟩
    · change searchEntries pred p es = some c2 at h
      rw [WF, Bool.and_eq_true] at hwf
      obtain ⟨k, v, q, hlkk, hpath, hlk⟩ :=
        searchEntries_result ih p c2 hwf.1 hwf.2 h
      refine ⟨Seg.key k :: q, ?_, ?_⟩
      · rw [hpath]
        exact (List.append_cons p (Seg.key k) q).symm
      · rw [lookupRel, hlkk]
        exact hlk
  | hproxy es ih =>
    intro p c2 hwf h
    rw [searchAux.eq_def] at h
    split at h
    · obtain rfl : (⟨PyVal.mappingProxy es, p⟩ : JsonCursor) = c2 := by simpa using h
      exact ⟨[], by simp, by simp [lookupRel]⟩
    · change searchEntries pred p es = some c2 at h
      rw [WF, Bool.and_eq_true] at hwf
      obtain ⟨k, v, q, hlkk, hpath, hlk⟩ :=
        searchEntries_result ih p c2 hwf.1 hwf.2 h
      refine ⟨Seg.key k :: q, ?_, ?_⟩
      · rw [hpath]
        exact (List.append_cons p (Seg.key k) q).symm
      · rw [lookupRel, hlkk]
        exact hlk
  | hlist xs ih =>
    intro p c2 hwf h
    rw [searchAux.eq_def] at h
    split at h
    · obtain rfl : (⟨PyVal.list xs, p⟩ : JsonCursor) = c2 := by simpa using h
      exact ⟨[], by simp, by simp [lookupRel]⟩
    · change searchItems pred p 0 xs = some c2 at h
      rw [WF] at hwf
      obtain ⟨j, x, q, hg, hpath, hlk⟩ := searchItems_result ih p 0 c2 hwf h
      refine ⟨Seg.idx j :: q, ?_, ?_⟩
      · rw [hpath, Nat.zero_add]
        exact (List.append_cons p (Seg.idx j) q).symm
      · rw [lookupRel, hg]
        exact hlk
  | htuple xs ih =>
    intro p c2 hwf h
    rw [searchAux.eq_def] at h
    split at h
    · obtain rfl : (⟨PyVal.tuple xs, p⟩ : JsonCursor) = c2 := by simpa using h
      exact ⟨[], by simp, by simp [lookupRel]⟩
    · change searchItems pred p 0 xs = some c2 at h
      rw [WF] at hwf
      obtain ⟨j, x, q, hg, hpath, hlk⟩ := searchItems_result ih p 0 c2 hwf h
      refine ⟨Seg.idx j :: q, ?_, ?_⟩
      · rw [hpath, Nat.zero_add]
        exact (List.append_cons p (Seg.idx j) q).symm
      · rw [lookupRel, hg]
        exact hlk
  | hstr s =>
    intro p c2 _ h
    rw [searchAux.eq_def] at h
    split at h
    · obtain rfl : (⟨PyVal.str s, p⟩ : JsonCursor) = c2 := by simpa using h
      exact ⟨[], by simp, by simp [lookupRel]⟩
    · change (Option.none : Option JsonCursor) = some c2 at h
      cases h
  | hbytes bs =>
    intro p c2 _ h
    rw [searchAux.eq_def] at h
    split at h
    · obtain rfl : (⟨PyVal.bytes bs, p⟩ : JsonCursor) = c2 := by simpa using h
      exact ⟨[], by simp, by simp [lookupRel]⟩
    · change (Option.none : Option JsonCursor) = some c2 at h
      cases h
  | hint n2 =>
    intro p c2 _ h
    rw [searchAux.eq_def] at h
    split at h
    · obtain rfl : (⟨PyVal.int n2, p⟩ : JsonCursor) = c2 := by simpa using h
      exact ⟨[], by simp, by simp [lookupRel]⟩
    · change (Option.none : Option JsonCursor) = some c2 at h
      cases h
  | hbool b =>
    intro p c2 _ h
    rw [searchAux.eq_def] at h
    split at h
    · obtain rfl : (⟨PyVal.bool b, p⟩ : JsonCursor) = c2 := by simpa using h
      exact ⟨[], by simp, by simp [lookupRel]⟩
    · change (Option.none : Option JsonCursor) = some c2 at h
      cases h
  | hnone =>
    intro p c2 _ h
    rw [searchAux.eq_def] at h
    split at h
    · obtain rfl : (⟨PyVal.none, p⟩ : JsonCursor) = c2 := by simpa using h
      exact ⟨[], by simp, by simp [lookupRel]⟩
    · change (Option.none : Option JsonCursor) = some c2 at h
      cases h

/-- C1 counterexample — the round-trip claim is false on the code for cursors
obtained as search results: on the root tuple `(1,)`, `search` descends into
the tuple (it is a Sequence) and returns the cursor at path `[0]`, but
re-navigating that path from the root fails, because `__getitem__` only
accepts lists (`NotASequence`), so no cursor with the same node and path is
produced. -/
theorem path_roundtrip_claim_false :
    JsonCursor.search ⟨.tuple [.int 1], []⟩
        (fun d => PyVal.bool (decide (d.node = .int 1))) =
      some ⟨.int 1, [.idx 0]⟩ ∧
    replay ⟨.tuple [.int 1], []⟩ [.idx 0] = .error .NotASequence := by
  constructor
  · rfl
  · rfl

/-- C1 amended — Path round-trip holds on trees of plain containers: if every
Sequence node of the tree is a Python `list` (no tuples) and every Mapping
node is a genuine Python `dict` (no `MappingProxyType`-style mappings, and no
duplicate keys — which Python guarantees), then for every cursor reachable
from the root — by `childByKey` steps, `childByIndex` steps, or as a `search`
result — re-navigating from the root through the segments of its path yields
exactly that cursor: same node, same path. -/
theorem path_roundtrip {t : PyVal} {c : JsonCursor}
    (hWF : WF t = true) (hnt : PlainContainers t = true) (hreach : Reachable t c) :
    replay ⟨t, []⟩ c.path = .ok c := by
  suffices hs : replay ⟨t, []⟩ c.path = .ok c ∧
      WF c.node = true ∧ PlainContainers c.node = true from hs.1
  induction hreach with
  | root => exact ⟨by simp [replay], hWF, hnt⟩
  | @key c1 c2 k hre hok ih =>
    obtain ⟨hrep, hwfc, hntc⟩ := ih
    obtain ⟨es, v, hnode, hlkk, rfl⟩ := childByKey_ok hok
    refine ⟨?_, ?_, ?_⟩
    · rw [replay_append, hrep]
      show (match c1.childByKey k with
        | .ok c3 => replay c3 []
        | .error e => Except.error e) = Except.ok ⟨v, c1.path ++ [Seg.key k]⟩
      rw [hok]
      rfl
    · rw [hnode, WF, Bool.and_eq_true] at hwfc
      exact WFEntries_mem hwfc.2 _ _ (lookupKey_mem hlkk)
    · rw [hnode, PlainContainers] at hntc
      exact PlainContainersEntries_mem hntc _ _ (lookupKey_mem hlkk)
  | @idx c1 c2 i hre hok ih =>
    obtain ⟨hrep, hwfc, hntc⟩ := ih
    obtain ⟨xs, v, hnode, hge0, hget, rfl⟩ := childByIndex_ok hok
    refine ⟨?_, ?_, ?_⟩
    · rw [replay_append, hrep]
      show (match c1.childByIndex ((i.toNat : Nat) : Int) with
        | .ok c3 => replay c3 []
        | .error e => Except.error e) =
        Except.ok ⟨v, c1.path ++ [Seg.idx i.toNat]⟩
      have hik : ((i.toNat : Nat) : Int) = i := Int.toNat_of_nonneg hge0
      rw [hik, hok]
      rfl
    · rw [hnode, WF] at hwfc
      exact WFItems_mem hwfc _ (List.get?_mem hget)
    · rw [hnode, PlainContainers] at hntc
      exact PlainContainersItems_mem hntc _ (List.get?_mem hget)
  | @found c1 c2 pred hre hfnd ih =>
    obtain ⟨hrep, hwfc, hntc⟩ := ih
    obtain ⟨q, hpath, hlk⟩ := searchAux_result pred c1.node c1.path c2 hwfc hfnd
    refine ⟨?_, lookupRel_WF q c1.node c2.node hwfc hlk,
      lookupRel_PlainContainers q c1.node c2.node hntc hlk⟩
    rw [hpath, replay_append, hrep]
    have hrl := replay_lookupRel q c1.node c1.path c2.node hntc hlk
    obtain ⟨n2, p2⟩ := c2
    simp only at hpath
    subst hpath
    exact hrl

/-- C1 witness: on the tree `{"user": {"age": 30}}`, the search result for
the value 30 is reachable and its path `["user", "age"]` replays from the
root to the very same cursor. -/
theorem path_roundtrip_witness :
    replay ⟨.dict [("user", .dict [("age", .int 30)])], []⟩
        [.key "user", .key "age"] =
      .ok ⟨.int 30, [.key "user", .key "age"]⟩ :=
  @path_roundtrip (.dict [("user", .dict [("age", .int 30)])])
    ⟨.int 30, [.key "user", .key "age"]⟩ (by decide) (by decide)
    (@Reachable.found (.dict [("user", .dict [("age", .int 30)])])
      ⟨.dict [("user", .dict [("age", .int 30)])], []⟩
      ⟨.int 30, [.key "user", .key "age"]⟩
      (fun d => PyVal.bool (decide (d.node = .int 30)))
      Reachable.root (by rfl))

/-- C8 counterexample — `get_path` does not return a defensive copy.  The
source is `return self.path`: the caller receives the cursor's own path list.
In the heap model (one list object with id 0 holding `["a"]`), the returned
reference reads back as the cursor's path, but after the caller clears the
list it got back, the cursor's internal path has changed from `["a"]` to
`[]` — mutating the returned list does corrupt the cursor's state. -/
theorem get_path_claim_false :
    readPath [[Seg.key "a"]] (HeapCursor.get_path ⟨.none, 0⟩) = [Seg.key "a"] ∧
    readPath (writePath [[Seg.key "a"]] (HeapCursor.get_path ⟨.none, 0⟩) [])
      (HeapCursor.mk .none 0).pathRef = [] ∧
    [Seg.key "a"] ≠ ([] : List Seg) := by
  refine ⟨rfl, rfl, by decide⟩

/-- C8 amended — `get_path` returns the cursor's path, but as an alias, not a
copy: the value-level `get_path` returns exactly the cursor's path, and at
heap level the returned reference is the cursor's own `path` attribute, so
reading through either gives the same list and a caller's in-place mutation
of the returned list is a mutation of the cursor's path (when the reference
is live in the store, the cursor's path reads back as the written value). -/
theorem get_path_alias (store : PathStore) (c : HeapCursor) (v : List Seg) :
    (∀ c2 : JsonCursor, JsonCursor.get_path c2 = c2.path) ∧
    HeapCursor.get_path c = c.pathRef ∧
    readPath store (HeapCursor.get_path c) = readPath store c.pathRef ∧
    (c.pathRef < store.length →
      readPath (writePath store (HeapCursor.get_path c) v) c.pathRef = v) := by
  refine ⟨fun c2 => rfl, rfl, rfl, ?_⟩
  intro hlt
  show (store.set c.pathRef v).getD c.pathRef [] = v
  rw [List.getD_eq_getElem?_getD, List.getElem?_set_eq_of_lt v hlt]
  rfl

/-- C8 witness: with a one-object store holding the path `["a"]`, writing
`[]` through the reference `get_path` returned makes the cursor's path read
back as `[]`. -/
theorem get_path_alias_witness :
    readPath (writePath [[Seg.key "a"]]
      (HeapCursor.get_path ⟨.none, 0⟩) []) (HeapCursor.mk .none 0).pathRef = [] :=
  (get_path_alias [[Seg.key "a"]] ⟨.none, 0⟩ []).2.2.2 (by decide)
